import Mathlib

/-!
Verification development for the `xdress.descfilter` plugin
(`src/xdress/descfilter.py`).

The registry of class descriptions and the five filtering passes
(`skip_types`, `skip_methods`, `skip_attrs`, `skip_auto`,
`include_methods`) are embedded as executable Lean functions.  Python
dictionaries become association lists (`List (key × value)`), which keeps
the insertion order that the source relies on ("first encountered in
mapping iteration"); exceptions (`AttributeError`, `KeyError`) become
`Except String`.  The external type canonicalizer (`rc.ts.canon`) is an
abstract boolean predicate `known : Ty → Bool` (it signals "unknown type"
by raising `TypeError` in the source), and the `TypeMatcher.flatmatches`
predicate is kept generic (`fm : M → Ty → Bool`) wherever the source only
calls it, with a concrete model of it ( `flatmatches`) used for the
scenarios that need one.
-/

namespace Descfilter

/-- Type descriptor: a recursive value describing a data type.  In the
source these are either bare strings (`"float64"`) or nested tuples
(`('vector', 'float64')`, `(('int32', 'const'), '&')`). -/
inductive Ty where
  | atom (s : String)
  | tup (elems : List Ty)

mutual

/-- Structural decidable equality of type descriptors. -/
def Ty.decEq : (a b : Ty) → Decidable (a = b)
  | .atom s, .atom t =>
    match String.decEq s t with
    | isTrue h => isTrue (by rw [h])
    | isFalse h => isFalse (fun hc => h (by cases hc; rfl))
  | .atom _, .tup _ => isFalse (fun hc => Ty.noConfusion hc)
  | .tup _, .atom _ => isFalse (fun hc => Ty.noConfusion hc)
  | .tup es, .tup fs =>
    match Ty.decEqList es fs with
    | isTrue h => isTrue (by rw [h])
    | isFalse h => isFalse (fun hc => h (by cases hc; rfl))

/-- Structural decidable equality of lists of type descriptors. -/
def Ty.decEqList : (as bs : List Ty) → Decidable (as = bs)
  | [], [] => isTrue rfl
  | [], _ :: _ => isFalse (fun hc => List.noConfusion hc)
  | _ :: _, [] => isFalse (fun hc => List.noConfusion hc)
  | a :: as, b :: bs =>
    match Ty.decEq a b, Ty.decEqList as bs with
    | isTrue h1, isTrue h2 => isTrue (by rw [h1, h2])
    | isFalse h1, _ => isFalse (fun hc => h1 (by cases hc; rfl))
    | isTrue _, isFalse h2 => isFalse (fun hc => h2 (by cases hc; rfl))

end

instance : DecidableEq Ty := Ty.decEq

mutual

/-- Collect every atomic identifier occurring anywhere in a descriptor
(the "flattening" of the spec glossary). -/
def Ty.flatten : Ty → List String
  | .atom s => [s]
  | .tup es => Ty.flattenList es

/-- Flattening of a list of descriptors, in order. -/
def Ty.flattenList : List Ty → List String
  | [] => []
  | t :: ts => Ty.flatten t ++ Ty.flattenList ts

end

/-- Modelled from the spec: `TypeMatcher.flatmatches`
(`xdress/type/matching.py`, not under `src/`).  A bare atomic pattern
matches in `Contains` mode (the atom occurs anywhere in the flattening of
the candidate); any compound pattern matches in `Exact` mode (structural
equality). -/
def flatmatches (pat : Ty) (cand : Ty) : Bool :=
  match pat with
  | .atom s => (Ty.flatten cand).any (fun a => decide (a = s))
  | .tup es => decide (Ty.tup es = cand)

/-- One typed formal argument of a method signature: the pair
`(param_name, type)` (any trailing default value is never read by the
filtering code). -/
structure Arg where
  pname : String
  ty : Ty
deriving DecidableEq

/-- A method signature: the tuple `(method_name, arg_1, arg_2, ...)` used
as key of the `methods` mapping. -/
structure Sig where
  name : String
  args : List Arg
deriving DecidableEq

/-- A class description: `desc['name']['tarname']`, the `attrs` mapping
(attribute name to type) and the `methods` mapping (signature to
method info, where the info is `None` for constructors or
`\x7b'return': type\x7d` otherwise, embedded as `Option Ty`). -/
structure Desc where
  tarname : String
  attrs : List (String × Ty)
  methods : List (Sig × Option Ty)
deriving DecidableEq

/-- Modelled from the spec: `isclassdesc` (`xdress/utils.py`, not under
`src/`) classifies registry entries as class descriptions or not; here an
entry is either a class description or an opaque non-class entry. -/
inductive Entry where
  | cls (d : Desc)
  | nonclass (tag : String)
deriving DecidableEq

/-- One module of the registry: mapping from class key to entry. -/
abbrev Mod := List (String × Entry)

/-- The description registry `rc.env`: mapping from module key to module. -/
abbrev Env := List (String × Mod)

/-- Python dict lookup `d[k]` on an association list (first binding). -/
def alookup {α : Type} (k : String) (l : List (String × α)) : Option α :=
  (l.find? (fun p => decide (p.1 = k))).map Prod.snd

/-- Membership of `k` in the keys of a rules mapping (`k in d.keys()`). -/
def keyMem {α : Type} (k : String) (l : List (String × α)) : Bool :=
  l.any (fun p => decide (p.1 = k))

/-- Python `del d[k]` for a dict represented as an association list with
a projected key: drop the binding of key `k`. -/
def delKeyG {α κ : Type} [DecidableEq κ] (key : α → κ) (k : κ) (l : List α) :
    List α :=
  l.filter (fun q => !(decide (key q = k)))

/-- Iterated deletion `for k in ks: del d[k]`. -/
def delKeysG {α κ : Type} [DecidableEq κ] (key : α → κ) (ks : List κ)
    (l : List α) : List α :=
  ks.foldl (fun acc k => delKeyG key k acc) l

/-- The deletion loop shared by the two halves of `modify_desc`: iterate
over a snapshot (`.copy().items()`) of the mapping and delete from the
live mapping every entry the predicate condemns. -/
def scanDel {α κ : Type} [DecidableEq κ] (bad : α → Bool) (key : α → κ) :
    List α → List α → List α
  | [], cur => cur
  | x :: rest, cur =>
    if bad x then scanDel bad key rest (delKeyG key (key x) cur)
    else scanDel bad key rest cur

/-- Does some matcher in `skips` match the type `t`
(`for tm in skips: if tm.flatmatches(t)`)? -/
def attrHit {M : Type} (fm : M → Ty → Bool) (skips : List M) (t : Ty) : Bool :=
  skips.any (fun tm => fm tm t)

/-- The return-type check of `modify_desc`:
`if m_ret and tm.flatmatches(m_ret['return'])` for some matcher;
a method with no return info (`None`) never matches. -/
def retHit {M : Type} (fm : M → Ty → Bool) (skips : List M) :
    Option Ty → Bool
  | none => false
  | some r => skips.any (fun tm => fm tm r)

/-- The argument scan of `modify_desc`: arguments in declared order, each
tested against the matchers in list order; the first hit condemns the
method (`for arg in m_args: for tm in skips: ...`). -/
def argHit {M : Type} (fm : M → Ty → Bool) (skips : List M)
    (args : List Arg) : Option Arg :=
  args.find? (fun a => skips.any (fun tm => fm tm a.ty))

/-- Is the method condemned by `modify_desc`: return type first, then the
argument scan. -/
def methodHit {M : Type} (fm : M → Ty → Bool) (skips : List M)
    (p : Sig × Option Ty) : Bool :=
  retHit fm skips p.2 || (argHit fm skips p.1.args).isSome

/-- `modify_desc(skips, desc)` (descfilter.py, lines 138-188): delete the
attributes whose type some matcher flatmatches, then delete the methods
whose return type (when present) or some argument type some matcher
flatmatches. -/
def modify_desc {M : Type} (fm : M → Ty → Bool) (skips : List M)
    (d : Desc) : Desc :=
  let attrs1 := scanDel (fun p => attrHit fm skips p.2) Prod.fst d.attrs d.attrs
  let methods1 := scanDel (methodHit fm skips) Prod.fst d.methods d.methods
  ⟨d.tarname, attrs1, methods1⟩

/-- The normalized `skiptypes` rule: the source branches on
`collections.Mapping` (per-class matcher lists) versus
`collections.Sequence` (one global matcher list). -/
inductive SkipTypes (M : Type) where
  | perClass (m : List (String × List M))
  | skipAll (l : List M)
deriving DecidableEq

/-- The run-controller fields read by the plugin.  `none` is the
`NotSpecified` sentinel.  `skips` stands for the attribute `rc.skips`
that line 238 of the source reads: nothing in the plugin ever assigns it
(setup assigns `rc.skiptypes`), so in a run of this plugin it is absent. -/
structure RC (M : Type) where
  skiptypes : Option (SkipTypes M)
  skips : Option (List (String × List M))
  skipmethods : Option (List (String × List String))
  skipattrs : Option (List (String × List String))
  includemethods : Option (List (String × List String))
  skipauto : Option Bool
deriving DecidableEq

/-- Apply a per-entry transformation to every entry of every module of
the registry (the nested `for ... in rc.env.items(): for ... in
mod.items():` loops), propagating the first raised exception. -/
def mapModM (f : String → Entry → Except String Entry) :
    Mod → Except String Mod
  | [] => .ok []
  | (kk, e) :: rest =>
    match f kk e with
    | .error s => .error s
    | .ok e1 =>
      match mapModM f rest with
      | .error s => .error s
      | .ok rest1 => .ok ((kk, e1) :: rest1)

/-- Registry-level version of `mapModM`. -/
def mapEnvM (f : String → Entry → Except String Entry) :
    Env → Except String Env
  | [] => .ok []
  | (mk, mod) :: rest =>
    match mapModM f mod with
    | .error s => .error s
    | .ok mod1 =>
      match mapEnvM f rest with
      | .error s => .error s
      | .ok rest1 => .ok ((mk, mod1) :: rest1)

/-- Exception-free registry map, for the pass that cannot raise. -/
def mapEnv (g : Entry → Entry) (env : Env) : Env :=
  env.map (fun p => (p.1, p.2.map (fun q => (q.1, g q.2))))

/-- Per-entry body of `XDressPlugin.skip_types` (lines 231-246): in the
mapping case a class is selected when its `tarname` is among the rule
keys, and the matcher list is then fetched from the `rc.skips` attribute
(line 238) under the `tarname`; in the sequence case every class gets the
global list.  Non-class entries are untouched. -/
def skipTypesEntry {M : Type} (fm : M → Ty → Bool)
    (skipsAttr : Option (List (String × List M))) (st : SkipTypes M)
    (e : Entry) : Except String Entry :=
  match e with
  | .nonclass t => .ok (.nonclass t)
  | .cls d =>
    match st with
    | .skipAll l => .ok (.cls (modify_desc fm l d))
    | .perClass m =>
      if keyMem d.tarname m then
        match skipsAttr with
        | none => .error "AttributeError: skips"
        | some sk =>
          match alookup d.tarname sk with
          | none => .error "KeyError"
          | some skips => .ok (.cls (modify_desc fm skips d))
      else .ok (.cls d)

/-- `XDressPlugin.skip_types` (lines 226-246). -/
def skip_types {M : Type} (fm : M → Ty → Bool) (rc : RC M) (env : Env) :
    Except String Env :=
  match rc.skiptypes with
  | none => .ok env
  | some st => mapEnvM (fun _ e => skipTypesEntry fm rc.skips st e) env

/-- Python 2 `s.startswith(m)`. -/
def startsWithB (s m : String) : Bool :=
  m.data.isPrefixOf s.data

/-- Python `del methods[k]`: drop the binding of signature `k`. -/
def delSig (k : Sig) (l : List (Sig × Option Ty)) : List (Sig × Option Ty) :=
  delKeyG Prod.fst k l

/-- The inner loop of `XDressPlugin.skip_methods` (lines 260-273) over
one class: `m_nms` is the snapshot of the method keys taken once before
the loop (line 259), so it is not refreshed by deletions.  For each
name `m`: `filter(f, m_nms)[0]` picks the first snapshot key whose
method-name starts with `m`; an empty filter raises `IndexError`, which
is caught (warning, continue).  The subsequent `del` raises an uncaught
`KeyError` when the picked key was already deleted by an earlier name. -/
def skipMethodsGo (m_nms : List Sig) :
    List String → List (Sig × Option Ty) → Except String (List (Sig × Option Ty))
  | [], cur => .ok cur
  | m :: rest, cur =>
    match (m_nms.filter (fun s => startsWithB s.name m)).head? with
    | none => skipMethodsGo m_nms rest cur
    | some k =>
      if cur.any (fun p => decide (p.1 = k)) then
        skipMethodsGo m_nms rest (delSig k cur)
      else .error "KeyError"

/-- The per-class body of `XDressPlugin.skip_methods`. -/
def skipMethodsClass (skippers : List String)
    (ms : List (Sig × Option Ty)) : Except String (List (Sig × Option Ty)) :=
  skipMethodsGo (ms.map Prod.fst) skippers ms

/-- Per-entry body of `XDressPlugin.skip_methods` (lines 253-273): a
class is selected when its `tarname` is among the rule keys (line 257),
but the name list is fetched under the registry key `k_key` (line 258),
raising `KeyError` when that key is absent from the rules. -/
def skipMethodsEntry (rules : List (String × List String)) (kk : String)
    (e : Entry) : Except String Entry :=
  match e with
  | .nonclass t => .ok (.nonclass t)
  | .cls d =>
    if keyMem d.tarname rules then
      match alookup kk rules with
      | none => .error "KeyError"
      | some skippers =>
        match skipMethodsClass skippers d.methods with
        | .error s => .error s
        | .ok ms => .ok (.cls ⟨d.tarname, d.attrs, ms⟩)
    else .ok (.cls d)

/-- `XDressPlugin.skip_methods` (lines 248-273). -/
def skip_methods {M : Type} (rc : RC M) (env : Env) : Except String Env :=
  match rc.skipmethods with
  | none => .ok env
  | some rules => mapEnvM (skipMethodsEntry rules) env

/-- The inner loop of `XDressPlugin.skip_attrs` (lines 287-293) over one
class: for each name, delete the attribute when present on the live
mapping, otherwise print a warning and continue. -/
def skipAttrsClass (skippers : List String) (attrs : List (String × Ty)) :
    List (String × Ty) :=
  match skippers with
  | [] => attrs
  | m :: rest =>
    skipAttrsClass rest
      (if keyMem m attrs then delKeyG Prod.fst m attrs else attrs)

/-- Per-entry body of `XDressPlugin.skip_attrs` (lines 280-293):
selection by `tarname`, rule lookup under the registry key `k_key`
(line 285). -/
def skipAttrsEntry (rules : List (String × List String)) (kk : String)
    (e : Entry) : Except String Entry :=
  match e with
  | .nonclass t => .ok (.nonclass t)
  | .cls d =>
    if keyMem d.tarname rules then
      match alookup kk rules with
      | none => .error "KeyError"
      | some skippers =>
        .ok (.cls ⟨d.tarname, skipAttrsClass skippers d.attrs, d.methods⟩)
    else .ok (.cls d)

/-- `XDressPlugin.skip_attrs` (lines 275-293). -/
def skip_attrs {M : Type} (rc : RC M) (env : Env) : Except String Env :=
  match rc.skipattrs with
  | none => .ok env
  | some rules => mapEnvM (skipAttrsEntry rules) env

/-- The per-class body of `XDressPlugin.include_methods` (lines 305-311):
keep exactly the signatures whose method name is in the keep set, each
mapped to its old info (`new_meths[mm] = old[mm]` over the filtered
snapshot of keys, which for a dict is the filter of the mapping). -/
def includeMethodsClass (keeps : List String)
    (ms : List (Sig × Option Ty)) : List (Sig × Option Ty) :=
  ms.filter (fun p => keeps.any (fun s => decide (s = p.1.name)))

/-- Per-entry body of `XDressPlugin.include_methods` (lines 300-311):
selection by `tarname`, keep-list lookup under the registry key `k_key`
(line 305). -/
def includeMethodsEntry (rules : List (String × List String)) (kk : String)
    (e : Entry) : Except String Entry :=
  match e with
  | .nonclass t => .ok (.nonclass t)
  | .cls d =>
    if keyMem d.tarname rules then
      match alookup kk rules with
      | none => .error "KeyError"
      | some keeps =>
        .ok (.cls ⟨d.tarname, d.attrs, includeMethodsClass keeps d.methods⟩)
    else .ok (.cls d)

/-- `XDressPlugin.include_methods` (lines 295-311). -/
def include_methods {M : Type} (rc : RC M) (env : Env) : Except String Env :=
  match rc.includemethods with
  | none => .ok env
  | some rules => mapEnvM (includeMethodsEntry rules) env

/-- First type of a method for which the canonicalizer signals unknown:
the return type (when the info dict is not `None`) is canonicalized
first, then the argument types in declared order; the scan stops at the
first raised `TypeError` (lines 339-346). -/
def firstUnknown (known : Ty → Bool) (ret : Option Ty) (args : List Arg) :
    Option Ty :=
  match ret with
  | some r =>
    if !known r then some r
    else (args.find? (fun a => !known a.ty)).map Arg.ty
  | none => (args.find? (fun a => !known a.ty)).map Arg.ty

/-- The per-class body of `XDressPlugin.skip_auto` (lines 323-354):
collect the blacklist of attributes whose type the canonicalizer rejects
and delete them afterwards; then collect the blacklist of method
signatures with some rejected type and delete them afterwards
(mark-then-delete, two phases). -/
def skipAutoClass (known : Ty → Bool) (d : Desc) : Desc :=
  let attrBlack := (d.attrs.filter (fun p => !known p.2)).map Prod.fst
  let attrs1 := delKeysG Prod.fst attrBlack d.attrs
  let methBlack :=
    (d.methods.filter (fun p => (firstUnknown known p.2 p.1.args).isSome)).map
      Prod.fst
  let methods1 := delKeysG Prod.fst methBlack d.methods
  ⟨d.tarname, attrs1, methods1⟩

/-- Per-entry body of `XDressPlugin.skip_auto`: every class description
is scanned; non-class entries are untouched. -/
def skipAutoEntry (known : Ty → Bool) (e : Entry) : Entry :=
  match e with
  | .nonclass t => .nonclass t
  | .cls d => .cls (skipAutoClass known d)

/-- `XDressPlugin.skip_auto` (lines 313-354).  The guard on line 315
only tests `rc.skipauto is NotSpecified`, so the pass runs for any set
value, `False` included. -/
def skip_auto {M : Type} (known : Ty → Bool) (rc : RC M) (env : Env) : Env :=
  match rc.skipauto with
  | none => env
  | some _ => mapEnv (skipAutoEntry known) env

/-- `XDressPlugin.execute` (lines 356-361): the five passes in fixed
order, an uncaught exception aborting the run. -/
def execute {M : Type} (fm : M → Ty → Bool) (known : Ty → Bool) (rc : RC M)
    (env : Env) : Except String Env :=
  match skip_types fm rc env with
  | .error s => .error s
  | .ok e1 =>
    match skip_methods rc e1 with
    | .error s => .error s
    | .ok e2 =>
      match skip_attrs rc e2 with
      | .error s => .error s
      | .ok e3 => include_methods rc (skip_auto known rc e3)

/-- A raw configuration value for one skip-type pattern, before
normalization: a string, a nested tuple of raw values, or anything else. -/
inductive Raw where
  | str (s : String)
  | tup (es : List Raw)
  | malformed

mutual

/-- Modelled from the spec: the `TypeMatcher` constructor
(`xdress/type/matching.py`, not under `src/`).  Construction from raw
input fails with a `MalformedPattern` error if the raw value is neither
a string nor a well-formed nested tuple shape (spec 4.1). -/
def TypeMatcher : Raw → Except String Ty
  | .str s => .ok (.atom s)
  | .tup es =>
    match TypeMatcherList es with
    | .error e => .error e
    | .ok ts => .ok (.tup ts)
  | .malformed => .error "MalformedPattern"

/-- `TypeMatcher` applied to the elements of a tuple, in order. -/
def TypeMatcherList : List Raw → Except String (List Ty)
  | [] => .ok []
  | r :: rs =>
    match TypeMatcher r with
    | .error e => .error e
    | .ok t =>
      match TypeMatcherList rs with
      | .error e => .error e
      | .ok ts => .ok (t :: ts)

end

/-- The raw `skiptypes` configuration value: a mapping from class name to
raw pattern lists, or a sequence of raw patterns. -/
inductive RawSkipTypes where
  | perClass (m : List (String × List Raw))
  | skipAll (l : List Raw)

/-- The raw run-controller state before `setup` runs. -/
structure RCRaw where
  skiptypes : Option RawSkipTypes
  skipmethods : Option (List (String × List String))
  skipattrs : Option (List (String × List String))
  includemethods : Option (List (String × List String))
  skipauto : Option Bool

/-- `[TypeMatcher(t) for t in l]`, propagating the first failure. -/
def setupList (l : List Raw) : Except String (List Ty) :=
  match l with
  | [] => .ok []
  | r :: rs =>
    match TypeMatcher r with
    | .error e => .error e
    | .ok t =>
      match setupList rs with
      | .error e => .error e
      | .ok ts => .ok (t :: ts)

/-- The mapping branch of `setup`: rebuild the per-class mapping with
every raw value replaced by a matcher. -/
def setupMap (m : List (String × List Raw)) :
    Except String (List (String × List Ty)) :=
  match m with
  | [] => .ok []
  | (kls, l) :: rest =>
    match setupList l with
    | .error e => .error e
    | .ok ts =>
      match setupMap rest with
      | .error e => .error e
      | .ok rest1 => .ok ((kls, ts) :: rest1)

/-- `XDressPlugin.setup` (lines 211-224): normalize `rc.skiptypes` into
`TypeMatcher` values (leaving it `NotSpecified` when unset); the other
fields pass through, and `rc.skips` is never assigned. -/
def setup (raw : RCRaw) : Except String (RC Ty) :=
  match raw.skiptypes with
  | none =>
    .ok ⟨none, none, raw.skipmethods, raw.skipattrs, raw.includemethods,
      raw.skipauto⟩
  | some (.perClass m) =>
    match setupMap m with
    | .error e => .error e
    | .ok m1 =>
      .ok ⟨some (.perClass m1), none, raw.skipmethods, raw.skipattrs,
        raw.includemethods, raw.skipauto⟩
  | some (.skipAll l) =>
    match setupList l with
    | .error e => .error e
    | .ok l1 =>
      .ok ⟨some (.skipAll l1), none, raw.skipmethods, raw.skipattrs,
        raw.includemethods, raw.skipauto⟩

/-- Modelled from the spec: the plugin protocol (`xdress/plugins.py`, not
under `src/`) runs every plugin's `setup` before any plugin's `execute`
(spec 2 and 7: normalization must fully succeed before the pipeline
begins).  A filtering run is therefore `setup` followed by the five-pass
pipeline on its result. -/
def runFilter (known : Ty → Bool) (raw : RCRaw) (env : Env) :
    Except String Env :=
  match setup raw with
  | .error e => .error e
  | .ok rc => execute flatmatches known rc env

/-! ### Deletion lemmas -/

section DelLemmas

variable {α κ : Type} [DecidableEq κ] {key : α → κ} {bad : α → Bool}

theorem mem_delKeyG {k : κ} {l : List α} {p : α} :
    p ∈ delKeyG key k l ↔ p ∈ l ∧ key p ≠ k := by
  simp [delKeyG, List.mem_filter]

theorem delKeyG_sublist (k : κ) (l : List α) :
    (delKeyG key k l).Sublist l :=
  List.filter_sublist l

theorem delKeyG_eq_self {k : κ} {l : List α} (h : ∀ p ∈ l, key p ≠ k) :
    delKeyG key k l = l := by
  rw [delKeyG, List.filter_eq_self]
  intro a ha
  simpa using h a ha

theorem delKeyG_cons (k : κ) (x : α) (l : List α) (h : key x ≠ k) :
    delKeyG key k (x :: l) = x :: delKeyG key k l := by
  simp [delKeyG, h]

@[simp] theorem delKeysG_nil (l : List α) :
    delKeysG key ([] : List κ) l = l := rfl

theorem delKeysG_cons (k : κ) (ks : List κ) (l : List α) :
    delKeysG key (k :: ks) l = delKeysG key ks (delKeyG key k l) := rfl

theorem mem_delKeysG {ks : List κ} {l : List α} {p : α} :
    p ∈ delKeysG key ks l ↔ p ∈ l ∧ key p ∉ ks := by
  induction ks generalizing l with
  | nil => simp
  | cons k ks ih =>
    rw [delKeysG_cons, ih]
    rw [mem_delKeyG]
    constructor
    · rintro ⟨⟨h1, h2⟩, h3⟩
      exact ⟨h1, by simp [h2, h3]⟩
    · rintro ⟨h1, h2⟩
      simp only [List.mem_cons, not_or] at h2
      exact ⟨⟨h1, h2.1⟩, h2.2⟩

theorem delKeysG_sublist (ks : List κ) (l : List α) :
    (delKeysG key ks l).Sublist l := by
  induction ks generalizing l with
  | nil => exact List.Sublist.refl l
  | cons k ks ih =>
    rw [delKeysG_cons]
    exact (ih (delKeyG key k l)).trans (delKeyG_sublist k l)

theorem delKeysG_eq_filter (ks : List κ) (l : List α) :
    delKeysG key ks l =
      l.filter (fun p => !(ks.any (fun k => decide (key p = k)))) := by
  induction ks generalizing l with
  | nil => simp
  | cons k ks ih =>
    rw [delKeysG_cons, ih, delKeyG, List.filter_filter]
    apply List.filter_congr
    intro a _
    simp [Bool.not_or, Bool.and_comm]

theorem delKeysG_eq_self {ks : List κ} {l : List α}
    (h : ∀ p ∈ l, key p ∉ ks) : delKeysG key ks l = l := by
  rw [delKeysG_eq_filter, List.filter_eq_self]
  intro a ha
  simp only [Bool.not_eq_true', List.any_eq_false, decide_eq_true_eq]
  intro x hx hc
  exact h a ha (hc ▸ hx)

/-! ### Lemmas about the `modify_desc` scan loop -/

theorem scanDel_sublist (snap : List α) (cur : List α) :
    (scanDel bad key snap cur).Sublist cur := by
  induction snap generalizing cur with
  | nil => exact List.Sublist.refl cur
  | cons x rest ih =>
    rw [scanDel]
    by_cases hb : bad x
    · simp only [hb, if_true]
      exact (ih _).trans (delKeyG_sublist _ _)
    · simp only [hb, if_false]
      exact ih _

/-- An entry of the snapshot that survives the scan is not condemned. -/
theorem scanDel_not_bad {snap cur : List α} {p : α}
    (hres : p ∈ scanDel bad key snap cur) (hsnap : p ∈ snap) :
    bad p = false := by
  induction snap generalizing cur with
  | nil => cases hsnap
  | cons x rest ih =>
    rw [scanDel] at hres
    by_cases hb : bad x
    · simp only [hb, if_true] at hres
      rcases List.mem_cons.mp hsnap with hpx | hpr
      · subst hpx
        have hmem : p ∈ delKeyG key (key p) cur :=
          (scanDel_sublist rest _).mem hres
        exact absurd (mem_delKeyG.mp hmem).2 (by simp)
      · exact ih hres hpr
    · simp only [hb, if_false] at hres
      rcases List.mem_cons.mp hsnap with hpx | hpr
      · subst hpx
        exact Bool.eq_false_iff.mpr hb
      · exact ih hres hpr

theorem scanDel_eq_self {snap : List α} (cur : List α)
    (h : ∀ x ∈ snap, bad x = false) : scanDel bad key snap cur = cur := by
  induction snap generalizing cur with
  | nil => rfl
  | cons x rest ih =>
    rw [scanDel]
    simp only [h x (List.mem_cons_self x rest), Bool.false_eq_true, if_false]
    exact ih _ (fun y hy => h y (List.mem_cons_of_mem x hy))

theorem scanDel_cons_out {rest : List α} {x : α} (cur : List α)
    (h : key x ∉ rest.map key) :
    scanDel bad key rest (x :: cur) = x :: scanDel bad key rest cur := by
  induction rest generalizing cur with
  | nil => rfl
  | cons y rest ih =>
    simp only [List.map_cons, List.mem_cons, not_or] at h
    rw [scanDel, scanDel]
    by_cases hb : bad y
    · simp only [hb, if_true]
      rw [delKeyG_cons (key y) x cur h.1]
      exact ih _ h.2
    · simp only [hb, if_false]
      exact ih _ h.2

/-- On a mapping with distinct keys the scan loop deletes exactly the
condemned entries. -/
theorem scanDel_eq_filter {snap : List α} (h : (snap.map key).Nodup) :
    scanDel bad key snap snap = snap.filter (fun x => !bad x) := by
  induction snap with
  | nil => rfl
  | cons x rest ih =>
    simp only [List.map_cons, List.nodup_cons] at h
    rw [scanDel]
    by_cases hb : bad x
    · simp only [hb, if_true]
      have hdel : delKeyG key (key x) (x :: rest) = rest := by
        rw [delKeyG, List.filter_cons]
        simp only [decide_True, Bool.not_true, Bool.false_eq_true, if_false]
        rw [List.filter_eq_self]
        intro a ha
        have : key a ≠ key x := fun hc => h.1 (hc ▸ List.mem_map_of_mem key ha)
        simpa using this
      rw [hdel, ih h.2, List.filter_cons]
      simp [hb]
    · simp only [hb, if_false]
      rw [scanDel_cons_out _ h.1, ih h.2, List.filter_cons]
      simp [hb]

end DelLemmas

/-! ### Facts about `modify_desc` -/

section ModifyDesc

variable {M : Type} (fm : M → Ty → Bool) (skips : List M)

theorem modify_desc_tarname (d : Desc) :
    (modify_desc fm skips d).tarname = d.tarname := rfl

theorem modify_desc_attrs_sublist (d : Desc) :
    ((modify_desc fm skips d).attrs).Sublist d.attrs :=
  scanDel_sublist d.attrs d.attrs

theorem modify_desc_methods_sublist (d : Desc) :
    ((modify_desc fm skips d).methods).Sublist d.methods :=
  scanDel_sublist d.methods d.methods

theorem modify_desc_attrs_not_hit {d : Desc} {p : String × Ty}
    (h : p ∈ (modify_desc fm skips d).attrs) : attrHit fm skips p.2 = false := by
  have h' : p ∈ scanDel (fun q => attrHit fm skips q.2) Prod.fst d.attrs d.attrs := h
  have hs : (scanDel (fun q => attrHit fm skips q.2) Prod.fst
      d.attrs d.attrs).Sublist d.attrs := scanDel_sublist d.attrs d.attrs
  have hres := scanDel_not_bad h' (hs.mem h')
  exact hres

theorem modify_desc_methods_not_hit {d : Desc} {p : Sig × Option Ty}
    (h : p ∈ (modify_desc fm skips d).methods) :
    methodHit fm skips p = false := by
  have h' : p ∈ scanDel (methodHit fm skips) Prod.fst d.methods d.methods := h
  have hs : (scanDel (methodHit fm skips) Prod.fst
      d.methods d.methods).Sublist d.methods := scanDel_sublist d.methods d.methods
  have hres := scanDel_not_bad h' (hs.mem h')
  exact hres

theorem modify_desc_eq_self {d : Desc}
    (ha : ∀ p ∈ d.attrs, attrHit fm skips p.2 = false)
    (hm : ∀ p ∈ d.methods, methodHit fm skips p = false) :
    modify_desc fm skips d = d := by
  show Desc.mk d.tarname _ _ = d
  rw [scanDel_eq_self d.attrs ha, scanDel_eq_self d.methods hm]

theorem modify_desc_attrs_eq_filter {d : Desc}
    (h : (d.attrs.map Prod.fst).Nodup) :
    (modify_desc fm skips d).attrs =
      d.attrs.filter (fun p => !attrHit fm skips p.2) :=
  scanDel_eq_filter h

theorem modify_desc_methods_eq_filter {d : Desc}
    (h : (d.methods.map Prod.fst).Nodup) :
    (modify_desc fm skips d).methods =
      d.methods.filter (fun p => !methodHit fm skips p) :=
  scanDel_eq_filter h

end ModifyDesc

/-! ### Facts about the per-class pass bodies -/

section ClassBodies

theorem keyMem_eq_false_of_sublist {α : Type} {k : String}
    {l1 l2 : List (String × α)} (hs : l1.Sublist l2)
    (h : keyMem k l2 = false) : keyMem k l1 = false := by
  simp only [keyMem, List.any_eq_false] at h ⊢
  exact fun p hp => h p (hs.mem hp)

theorem skipAttrsClass_sublist (sk : List String) (attrs : List (String × Ty)) :
    (skipAttrsClass sk attrs).Sublist attrs := by
  induction sk generalizing attrs with
  | nil => exact List.Sublist.refl attrs
  | cons m rest ih =>
    rw [skipAttrsClass]
    by_cases hk : keyMem m attrs
    · simp only [hk, if_true]
      exact (ih _).trans (delKeyG_sublist _ _)
    · simp only [hk, if_false]
      exact ih _

theorem skipAttrsClass_absent {sk : List String} {attrs : List (String × Ty)} :
    ∀ m ∈ sk, keyMem m (skipAttrsClass sk attrs) = false := by
  induction sk generalizing attrs with
  | nil => intro m hm; cases hm
  | cons m0 rest ih =>
    intro m hm
    rw [skipAttrsClass]
    rcases List.mem_cons.mp hm with hm0 | hmr
    · subst hm0
      have habs : ∀ (a : List (String × Ty)), keyMem m a = false →
          keyMem m (skipAttrsClass rest a) = false :=
        fun a ha => keyMem_eq_false_of_sublist (skipAttrsClass_sublist rest a) ha
      by_cases hk : keyMem m attrs
      · simp only [hk, if_true]
        apply habs
        simp only [keyMem, List.any_eq_false]
        intro p hp
        have := (mem_delKeyG.mp hp).2
        simpa using this
      · simp only [hk, if_false]
        exact habs attrs (Bool.eq_false_iff.mpr hk)
    · exact ih m hmr

theorem skipAttrsClass_eq_self {sk : List String}
    {attrs : List (String × Ty)} (h : ∀ m ∈ sk, keyMem m attrs = false) :
    skipAttrsClass sk attrs = attrs := by
  induction sk with
  | nil => rfl
  | cons m rest ih =>
    rw [skipAttrsClass]
    simp only [h m (List.mem_cons_self m rest), Bool.false_eq_true, if_false]
    exact ih (fun m2 hm2 => h m2 (List.mem_cons_of_mem m hm2))

theorem includeMethodsClass_sublist (keeps : List String)
    (ms : List (Sig × Option Ty)) :
    (includeMethodsClass keeps ms).Sublist ms :=
  List.filter_sublist ms

theorem includeMethodsClass_names {keeps : List String}
    {ms : List (Sig × Option Ty)} {p : Sig × Option Ty}
    (h : p ∈ includeMethodsClass keeps ms) :
    keeps.any (fun s => decide (s = p.1.name)) = true :=
  (List.mem_filter.mp h).2

theorem includeMethodsClass_eq_self {keeps : List String}
    {ms : List (Sig × Option Ty)}
    (h : ∀ p ∈ ms, keeps.any (fun s => decide (s = p.1.name)) = true) :
    includeMethodsClass keeps ms = ms :=
  List.filter_eq_self.mpr h

theorem skipAutoClass_tarname (known : Ty → Bool) (d : Desc) :
    (skipAutoClass known d).tarname = d.tarname := rfl

theorem skipAutoClass_attrs_sublist (known : Ty → Bool) (d : Desc) :
    ((skipAutoClass known d).attrs).Sublist d.attrs :=
  delKeysG_sublist _ d.attrs

theorem skipAutoClass_methods_sublist (known : Ty → Bool) (d : Desc) :
    ((skipAutoClass known d).methods).Sublist d.methods :=
  delKeysG_sublist _ d.methods

theorem skipAutoClass_attrs_known {known : Ty → Bool} {d : Desc}
    {p : String × Ty} (h : p ∈ (skipAutoClass known d).attrs) :
    known p.2 = true := by
  have hmem := mem_delKeysG.mp h
  by_contra hk
  exact hmem.2 (List.mem_map_of_mem Prod.fst
    (List.mem_filter.mpr ⟨hmem.1, by simp [Bool.eq_false_iff.mpr hk]⟩))

theorem skipAutoClass_methods_known {known : Ty → Bool} {d : Desc}
    {p : Sig × Option Ty} (h : p ∈ (skipAutoClass known d).methods) :
    (firstUnknown known p.2 p.1.args).isSome = false := by
  have hmem := mem_delKeysG.mp h
  by_contra hk
  exact hmem.2 (List.mem_map_of_mem Prod.fst
    (List.mem_filter.mpr ⟨hmem.1, Bool.not_eq_false _ |>.mp hk⟩))

theorem skipAutoClass_eq_self {known : Ty → Bool} {d : Desc}
    (ha : ∀ p ∈ d.attrs, known p.2 = true)
    (hm : ∀ p ∈ d.methods, (firstUnknown known p.2 p.1.args).isSome = false) :
    skipAutoClass known d = d := by
  show Desc.mk d.tarname _ _ = d
  have h1 : delKeysG Prod.fst
      ((d.attrs.filter (fun p => !known p.2)).map Prod.fst) d.attrs = d.attrs := by
    apply delKeysG_eq_self
    intro p hp hc
    rcases List.mem_map.mp hc with ⟨q, hq, hqe⟩
    have := (List.mem_filter.mp hq).2
    rw [ha q (List.mem_filter.mp hq).1] at this
    cases this
  have h2 : delKeysG Prod.fst
      ((d.methods.filter
        (fun p => (firstUnknown known p.2 p.1.args).isSome)).map Prod.fst)
      d.methods = d.methods := by
    apply delKeysG_eq_self
    intro p hp hc
    rcases List.mem_map.mp hc with ⟨q, hq, hqe⟩
    have hbad := (List.mem_filter.mp hq).2
    rw [hm q (List.mem_filter.mp hq).1] at hbad
    cases hbad
  rw [h1, h2]

end ClassBodies

/-! ### Pointwise relations over the registry -/

section EnvRelMachinery

/-- Pointwise relation between two modules: same class keys in the same
order, entries related at each position. -/
def ModRel (r : String → Entry → Entry → Prop) (a b : Mod) : Prop :=
  List.Forall₂ (fun p q => p.1 = q.1 ∧ r p.1 p.2 q.2) a b

/-- Pointwise relation between two registries: same module keys, modules
pointwise related. -/
def EnvRel (r : String → Entry → Entry → Prop) (a b : Env) : Prop :=
  List.Forall₂ (fun p q => p.1 = q.1 ∧ ModRel r p.2 q.2) a b

theorem modRel_of_mapModM {f : String → Entry → Except String Entry}
    {a b : Mod} (h : mapModM f a = .ok b) :
    ModRel (fun kk x y => f kk x = .ok y) a b := by
  induction a generalizing b with
  | nil =>
    rw [mapModM] at h
    cases h
    exact List.Forall₂.nil
  | cons p rest ih =>
    rw [mapModM] at h
    rcases p with ⟨kk, e⟩
    rcases hf : f kk e with s | e1 <;> rw [hf] at h
    · cases h
    rcases hr : mapModM f rest with s | rest1 <;> rw [hr] at h
    · cases h
    cases h
    exact List.Forall₂.cons ⟨rfl, hf⟩ (ih hr)

theorem mapModM_of_modRel {f : String → Entry → Except String Entry}
    {a b : Mod} (h : ModRel (fun kk x y => f kk x = .ok y) a b) :
    mapModM f a = .ok b := by
  induction h with
  | nil => rfl
  | @cons p q l1 l2 hpq htail ih =>
    rcases p with ⟨kk, x⟩
    rcases q with ⟨kk2, y⟩
    rcases hpq with ⟨hk, hf⟩
    cases hk
    rw [mapModM, hf, ih]

theorem envRel_of_mapEnvM {f : String → Entry → Except String Entry}
    {a b : Env} (h : mapEnvM f a = .ok b) :
    EnvRel (fun kk x y => f kk x = .ok y) a b := by
  induction a generalizing b with
  | nil =>
    rw [mapEnvM] at h
    cases h
    exact List.Forall₂.nil
  | cons p rest ih =>
    rw [mapEnvM] at h
    rcases p with ⟨mk, mod⟩
    rcases hf : mapModM f mod with s | mod1 <;> rw [hf] at h
    · cases h
    rcases hr : mapEnvM f rest with s | rest1 <;> rw [hr] at h
    · cases h
    cases h
    exact List.Forall₂.cons ⟨rfl, modRel_of_mapModM hf⟩ (ih hr)

theorem mapEnvM_of_envRel {f : String → Entry → Except String Entry}
    {a b : Env} (h : EnvRel (fun kk x y => f kk x = .ok y) a b) :
    mapEnvM f a = .ok b := by
  induction h with
  | nil => rfl
  | @cons p q l1 l2 hpq htail ih =>
    rcases p with ⟨mk, mod⟩
    rcases q with ⟨mk2, mod2⟩
    rcases hpq with ⟨hk, hmod⟩
    cases hk
    rw [mapEnvM, mapModM_of_modRel hmod, ih]

theorem modRel_of_mapMod {g : Entry → Entry} (mod : Mod) :
    ModRel (fun _ x y => y = g x) mod
      (mod.map (fun q => (q.1, g q.2))) := by
  induction mod with
  | nil => exact List.Forall₂.nil
  | cons q rest ih =>
    refine List.Forall₂.cons ⟨rfl, ?_⟩ ih
    rfl

theorem envRel_of_mapEnv {g : Entry → Entry} (env : Env) :
    EnvRel (fun _ x y => y = g x) env (mapEnv g env) := by
  induction env with
  | nil => exact List.Forall₂.nil
  | cons p rest ih => exact List.Forall₂.cons ⟨rfl, modRel_of_mapMod p.2⟩ ih

theorem mapMod_of_modRel {g : Entry → Entry} {ma mb : Mod}
    (h : ModRel (fun _ x y => y = g x) ma mb) :
    ma.map (fun q => (q.1, g q.2)) = mb := by
  induction h with
  | nil => rfl
  | @cons x y l1 l2 hxy htail ih =>
    rcases x with ⟨kk, e⟩
    rcases y with ⟨kk2, e2⟩
    rcases hxy with ⟨hk, he⟩
    cases hk
    cases he
    simp only [List.map_cons, ih]

theorem mapEnv_of_envRel {g : Entry → Entry} {a b : Env}
    (h : EnvRel (fun _ x y => y = g x) a b) : mapEnv g a = b := by
  induction h with
  | nil => rfl
  | @cons p q l1 l2 hpq htail ih =>
    rcases p with ⟨mk, mod⟩
    rcases q with ⟨mk2, mod2⟩
    rcases hpq with ⟨hk, hmod⟩
    cases hk
    simp only [mapEnv, List.map_cons] at ih ⊢
    rw [mapMod_of_modRel hmod, ih]

theorem modRel_comp {r s : String → Entry → Entry → Prop} {a b c : Mod}
    (h1 : ModRel r a b) (h2 : ModRel s b c) :
    ModRel (fun kk x z => ∃ y, r kk x y ∧ s kk y z) a c := by
  induction h1 generalizing c with
  | nil =>
    cases h2
    exact List.Forall₂.nil
  | @cons p q l1 l2 hpq htail ih =>
    cases h2 with
    | @cons _ q2 _ l3 hqc htail2 =>
      refine List.Forall₂.cons ⟨hpq.1.trans hqc.1, q.2, hpq.2, ?_⟩ (ih htail2)
      rw [hpq.1]
      exact hqc.2

theorem envRel_comp {r s : String → Entry → Entry → Prop} {a b c : Env}
    (h1 : EnvRel r a b) (h2 : EnvRel s b c) :
    EnvRel (fun kk x z => ∃ y, r kk x y ∧ s kk y z) a c := by
  induction h1 generalizing c with
  | nil =>
    cases h2
    exact List.Forall₂.nil
  | @cons p q l1 l2 hpq htail ih =>
    cases h2 with
    | @cons _ q2 _ l3 hqc htail2 =>
      exact List.Forall₂.cons
        ⟨hpq.1.trans hqc.1, modRel_comp hpq.2 hqc.2⟩ (ih htail2)

theorem modRel_diag {r s : String → Entry → Entry → Prop} {a b : Mod}
    (h : ModRel r a b) (hd : ∀ kk x y, r kk x y → s kk y y) :
    ModRel s b b := by
  induction h with
  | nil => exact List.Forall₂.nil
  | @cons p q l1 l2 hpq htail ih =>
    refine List.Forall₂.cons ⟨rfl, ?_⟩ ih
    have hq := hd p.1 p.2 q.2 hpq.2
    rwa [hpq.1] at hq

theorem envRel_diag {r s : String → Entry → Entry → Prop} {a b : Env}
    (h : EnvRel r a b) (hd : ∀ kk x y, r kk x y → s kk y y) :
    EnvRel s b b := by
  induction h with
  | nil => exact List.Forall₂.nil
  | @cons p q l1 l2 hpq htail ih =>
    exact List.Forall₂.cons ⟨rfl, modRel_diag hpq.2 hd⟩ ih

theorem modRel_mem {r : String → Entry → Entry → Prop} {a b : Mod}
    (h : ModRel r a b) {kk : String} {y : Entry} (hmem : (kk, y) ∈ b) :
    ∃ x, (kk, x) ∈ a ∧ r kk x y := by
  induction h with
  | nil => cases hmem
  | @cons p q l1 l2 hpq htail ih =>
    rcases List.mem_cons.mp hmem with hq | hr
    · cases hq
      have hk : p.1 = kk := hpq.1
      refine ⟨p.2, ?_, ?_⟩
      · rw [← hk]
        exact List.mem_cons_self p l1
      · have hp2 : r p.1 p.2 y := hpq.2
        rwa [hk] at hp2
    · rcases ih hr with ⟨x, hx, hr2⟩
      exact ⟨x, List.mem_cons_of_mem _ hx, hr2⟩

theorem envRel_mem {r : String → Entry → Entry → Prop} {a b : Env}
    (h : EnvRel r a b) {mk : String} {modb : Mod} (hmem : (mk, modb) ∈ b) :
    ∃ moda, (mk, moda) ∈ a ∧ ModRel r moda modb := by
  induction h with
  | nil => cases hmem
  | @cons p q l1 l2 hpq htail ih =>
    rcases List.mem_cons.mp hmem with hq | hr
    · cases hq
      have hk : p.1 = mk := hpq.1
      refine ⟨p.2, ?_, ?_⟩
      · rw [← hk]
        exact List.mem_cons_self p l1
      · exact hpq.2
    · rcases ih hr with ⟨x, hx, hr2⟩
      exact ⟨x, List.mem_cons_of_mem _ hx, hr2⟩

end EnvRelMachinery

/-! ### Each pass as a total per-entry transformation -/

section PassBridges

variable {M : Type}

/-- Per-entry form of `skip_types`, absorbing the unset check. -/
def stE (fm : M → Ty → Bool) (rc : RC M) (_kk : String) (e : Entry) :
    Except String Entry :=
  match rc.skiptypes with
  | none => .ok e
  | some st => skipTypesEntry fm rc.skips st e

/-- Per-entry form of `skip_attrs`, absorbing the unset check. -/
def saE (rc : RC M) (kk : String) (e : Entry) : Except String Entry :=
  match rc.skipattrs with
  | none => .ok e
  | some rules => skipAttrsEntry rules kk e

/-- Per-entry form of `include_methods`, absorbing the unset check. -/
def imE (rc : RC M) (kk : String) (e : Entry) : Except String Entry :=
  match rc.includemethods with
  | none => .ok e
  | some rules => includeMethodsEntry rules kk e

/-- Per-entry form of `skip_auto`, absorbing the unset check. -/
def auE (known : Ty → Bool) (rc : RC M) (e : Entry) : Entry :=
  match rc.skipauto with
  | none => e
  | some _ => skipAutoEntry known e

theorem mapModM_congr (f g : String → Entry → Except String Entry)
    (h : ∀ kk e, f kk e = g kk e) : ∀ m : Mod, mapModM f m = mapModM g m
  | [] => rfl
  | (kk, e) :: rest => by
    rw [mapModM, mapModM, h kk e, mapModM_congr f g h rest]

theorem mapEnvM_congr (f g : String → Entry → Except String Entry)
    (h : ∀ kk e, f kk e = g kk e) : ∀ env : Env, mapEnvM f env = mapEnvM g env
  | [] => rfl
  | (mk, mod) :: rest => by
    rw [mapEnvM, mapEnvM, mapModM_congr f g h mod, mapEnvM_congr f g h rest]

theorem mapModM_id : ∀ m : Mod, mapModM (fun _ e => .ok e) m = .ok m
  | [] => rfl
  | (kk, e) :: rest => by
    rw [mapModM, mapModM_id rest]

theorem mapEnvM_id : ∀ env : Env, mapEnvM (fun _ e => .ok e) env = .ok env
  | [] => rfl
  | (mk, mod) :: rest => by
    rw [mapEnvM, mapModM_id mod, mapEnvM_id rest]

theorem mapEnv_congr (f g : Entry → Entry) (h : ∀ e, f e = g e)
    (env : Env) : mapEnv f env = mapEnv g env := by
  unfold mapEnv
  apply List.map_congr_left
  intro p _
  congr 1
  apply List.map_congr_left
  intro q _
  rw [h q.2]

theorem mapEnv_id (env : Env) : mapEnv (fun e => e) env = env := by
  unfold mapEnv
  have hmod : ∀ m : Mod, m.map (fun q => (q.1, q.2)) = m := by
    intro m
    induction m with
    | nil => rfl
    | cons q rest ih => rw [List.map_cons, ih]
  induction env with
  | nil => rfl
  | cons p rest ih => rw [List.map_cons, hmod p.2, ih]

theorem skip_types_eq (fm : M → Ty → Bool) (rc : RC M) (env : Env) :
    skip_types fm rc env = mapEnvM (stE fm rc) env := by
  rcases h : rc.skiptypes with _ | st
  · rw [skip_types, h, (mapEnvM_id env).symm]
    exact (mapEnvM_congr _ _ (fun kk e => by rw [stE, h]) env).symm
  · rw [skip_types, h]
    exact mapEnvM_congr _ _ (fun kk e => by rw [stE, h]) env

theorem skip_attrs_eq (rc : RC M) (env : Env) :
    skip_attrs rc env = mapEnvM (saE rc) env := by
  rcases h : rc.skipattrs with _ | rules
  · rw [skip_attrs, h, (mapEnvM_id env).symm]
    exact (mapEnvM_congr _ _ (fun kk e => by rw [saE, h]) env).symm
  · rw [skip_attrs, h]
    exact mapEnvM_congr _ _ (fun kk e => by rw [saE, h]) env

theorem include_methods_eq (rc : RC M) (env : Env) :
    include_methods rc env = mapEnvM (imE rc) env := by
  rcases h : rc.includemethods with _ | rules
  · rw [include_methods, h, (mapEnvM_id env).symm]
    exact (mapEnvM_congr _ _ (fun kk e => by rw [imE, h]) env).symm
  · rw [include_methods, h]
    exact mapEnvM_congr _ _ (fun kk e => by rw [imE, h]) env

theorem skip_auto_eq (known : Ty → Bool) (rc : RC M) (env : Env) :
    skip_auto known rc env = mapEnv (auE known rc) env := by
  rcases h : rc.skipauto with _ | b
  · have h1 : skip_auto known rc env = env := by simp only [skip_auto, h]
    have h2 : mapEnv (auE known rc) env = mapEnv (fun e => e) env :=
      mapEnv_congr _ _ (fun e => by simp only [auE, h]) env
    rw [h1, h2, mapEnv_id]
  · have h1 : skip_auto known rc env = mapEnv (skipAutoEntry known) env := by
      simp only [skip_auto, h]
    have h2 : mapEnv (auE known rc) env = mapEnv (skipAutoEntry known) env :=
      mapEnv_congr _ _ (fun e => by simp only [auE, h]) env
    rw [h1, h2]

end PassBridges

/-! ### Stability of each pass on its own output -/

section Stability

variable {M : Type}

/-- `d2` is obtained from `d1` purely by dropping attributes and
methods (what any later pass can do to a class description). -/
def Shrinks (d2 d1 : Desc) : Prop :=
  d2.tarname = d1.tarname ∧ d2.attrs.Sublist d1.attrs ∧
    d2.methods.Sublist d1.methods

theorem Shrinks.refl (d : Desc) : Shrinks d d :=
  ⟨rfl, List.Sublist.refl _, List.Sublist.refl _⟩

theorem Shrinks.trans {d3 d2 d1 : Desc} (h1 : Shrinks d3 d2)
    (h2 : Shrinks d2 d1) : Shrinks d3 d1 :=
  ⟨h1.1.trans h2.1, h1.2.1.trans h2.2.1, h1.2.2.trans h2.2.2⟩

theorem stE_nonclass (fm : M → Ty → Bool) (rc : RC M) (kk : String)
    (t : String) : stE fm rc kk (.nonclass t) = .ok (.nonclass t) := by
  rcases h : rc.skiptypes with _ | st
  · simp only [stE, h]
  · rcases st with m | l <;> simp only [stE, h, skipTypesEntry]

theorem saE_nonclass (rc : RC M) (kk : String) (t : String) :
    saE rc kk (.nonclass t) = .ok (.nonclass t) := by
  rcases h : rc.skipattrs with _ | rules <;>
    simp only [saE, h, skipAttrsEntry]

theorem imE_nonclass (rc : RC M) (kk : String) (t : String) :
    imE rc kk (.nonclass t) = .ok (.nonclass t) := by
  rcases h : rc.includemethods with _ | rules <;>
    simp only [imE, h, includeMethodsEntry]

theorem auE_nonclass (known : Ty → Bool) (rc : RC M) (t : String) :
    auE known rc (.nonclass t) = .nonclass t := by
  rcases h : rc.skipauto with _ | b <;>
    simp only [auE, h, skipAutoEntry]

theorem stE_cls_ok {fm : M → Ty → Bool} {rc : RC M} {kk : String}
    {d : Desc} {e1 : Entry} (h : stE fm rc kk (.cls d) = .ok e1) :
    ∃ d1, e1 = .cls d1 ∧ Shrinks d1 d ∧
      ∀ d2, Shrinks d2 d1 → stE fm rc kk (.cls d2) = .ok (.cls d2) := by
  rcases hst : rc.skiptypes with _ | st
  · rw [stE, hst] at h
    cases h
    exact ⟨d, rfl, Shrinks.refl d, fun d2 _ => by rw [stE, hst]⟩
  rcases st with m | l
  · rw [stE, hst] at h
    simp only [skipTypesEntry] at h
    by_cases hsel : keyMem d.tarname m = true
    · rw [if_pos hsel] at h
      split at h
      · exact absurd h (by simp)
      · rename_i sk hsk
        split at h
        · exact absurd h (by simp)
        · rename_i skips hlk
          cases h
          refine ⟨modify_desc fm skips d, rfl,
            ⟨rfl, modify_desc_attrs_sublist fm skips d,
              modify_desc_methods_sublist fm skips d⟩, ?_⟩
          intro d2 hsh
          have htn : d2.tarname = d.tarname := hsh.1
          have heq : modify_desc fm skips d2 = d2 := by
            apply modify_desc_eq_self
            · intro p hp
              exact modify_desc_attrs_not_hit fm skips (hsh.2.1.mem hp)
            · intro p hp
              exact modify_desc_methods_not_hit fm skips (hsh.2.2.mem hp)
          rw [stE, hst]
          simp only [skipTypesEntry, htn, hsel, if_true, hsk, hlk, heq]
    · rw [if_neg hsel] at h
      cases h
      refine ⟨d, rfl, Shrinks.refl d, ?_⟩
      intro d2 hsh
      rw [stE, hst]
      simp only [skipTypesEntry, hsh.1]
      rw [if_neg hsel]
  · rw [stE, hst] at h
    simp only [skipTypesEntry] at h
    cases h
    refine ⟨modify_desc fm l d, rfl,
      ⟨rfl, modify_desc_attrs_sublist fm l d,
        modify_desc_methods_sublist fm l d⟩, ?_⟩
    intro d2 hsh
    have heq : modify_desc fm l d2 = d2 := by
      apply modify_desc_eq_self
      · intro p hp
        exact modify_desc_attrs_not_hit fm l (hsh.2.1.mem hp)
      · intro p hp
        exact modify_desc_methods_not_hit fm l (hsh.2.2.mem hp)
    rw [stE, hst]
    simp only [skipTypesEntry, heq]

theorem saE_cls_ok {rc : RC M} {kk : String} {d : Desc} {e1 : Entry}
    (h : saE rc kk (.cls d) = .ok e1) :
    ∃ d1, e1 = .cls d1 ∧ Shrinks d1 d ∧
      ∀ d2, Shrinks d2 d1 → saE rc kk (.cls d2) = .ok (.cls d2) := by
  rcases hsa : rc.skipattrs with _ | rules
  · rw [saE, hsa] at h
    cases h
    exact ⟨d, rfl, Shrinks.refl d, fun d2 _ => by rw [saE, hsa]⟩
  rw [saE, hsa] at h
  simp only [skipAttrsEntry] at h
  by_cases hsel : keyMem d.tarname rules = true
  · rw [if_pos hsel] at h
    split at h
    · exact absurd h (by simp)
    · rename_i skippers hlk
      cases h
      refine ⟨⟨d.tarname, skipAttrsClass skippers d.attrs, d.methods⟩, rfl,
        ⟨rfl, skipAttrsClass_sublist skippers d.attrs, List.Sublist.refl _⟩, ?_⟩
      intro d2 hsh
      have htn : d2.tarname = d.tarname := hsh.1
      have heq : skipAttrsClass skippers d2.attrs = d2.attrs := by
        apply skipAttrsClass_eq_self
        intro m hm
        exact keyMem_eq_false_of_sublist hsh.2.1 (skipAttrsClass_absent m hm)
      rw [saE, hsa]
      simp only [skipAttrsEntry, htn, hsel, if_true, hlk, heq]
      rw [← htn]
  · rw [if_neg hsel] at h
    cases h
    refine ⟨d, rfl, Shrinks.refl d, ?_⟩
    intro d2 hsh
    rw [saE, hsa]
    simp only [skipAttrsEntry, hsh.1]
    rw [if_neg hsel]

theorem imE_cls_ok {rc : RC M} {kk : String} {d : Desc} {e1 : Entry}
    (h : imE rc kk (.cls d) = .ok e1) :
    ∃ d1, e1 = .cls d1 ∧ Shrinks d1 d ∧
      ∀ d2, Shrinks d2 d1 → imE rc kk (.cls d2) = .ok (.cls d2) := by
  rcases him : rc.includemethods with _ | rules
  · rw [imE, him] at h
    cases h
    exact ⟨d, rfl, Shrinks.refl d, fun d2 _ => by rw [imE, him]⟩
  rw [imE, him] at h
  simp only [includeMethodsEntry] at h
  by_cases hsel : keyMem d.tarname rules = true
  · rw [if_pos hsel] at h
    split at h
    · exact absurd h (by simp)
    · rename_i keeps hlk
      cases h
      refine ⟨⟨d.tarname, d.attrs, includeMethodsClass keeps d.methods⟩, rfl,
        ⟨rfl, List.Sublist.refl _,
          includeMethodsClass_sublist keeps d.methods⟩, ?_⟩
      intro d2 hsh
      have htn : d2.tarname = d.tarname := hsh.1
      have heq : includeMethodsClass keeps d2.methods = d2.methods := by
        apply includeMethodsClass_eq_self
        intro p hp
        exact includeMethodsClass_names (hsh.2.2.mem hp)
      rw [imE, him]
      simp only [includeMethodsEntry, htn, hsel, if_true, hlk, heq]
      rw [← htn]
  · rw [if_neg hsel] at h
    cases h
    refine ⟨d, rfl, Shrinks.refl d, ?_⟩
    intro d2 hsh
    rw [imE, him]
    simp only [includeMethodsEntry, hsh.1]
    rw [if_neg hsel]

theorem auE_cls (known : Ty → Bool) (rc : RC M) (d : Desc) :
    ∃ d1, auE known rc (.cls d) = .cls d1 ∧ Shrinks d1 d ∧
      ∀ d2, Shrinks d2 d1 → auE known rc (.cls d2) = .cls d2 := by
  rcases hau : rc.skipauto with _ | b
  · exact ⟨d, by simp only [auE, hau], Shrinks.refl d,
      fun d2 _ => by simp only [auE, hau]⟩
  refine ⟨skipAutoClass known d, by simp only [auE, hau, skipAutoEntry],
    ⟨rfl, skipAutoClass_attrs_sublist known d,
      skipAutoClass_methods_sublist known d⟩, ?_⟩
  intro d2 hsh
  simp only [auE, hau, skipAutoEntry]
  rw [skipAutoClass_eq_self]
  · intro p hp
    exact skipAutoClass_attrs_known (hsh.2.1.mem hp)
  · intro p hp
    exact skipAutoClass_methods_known (hsh.2.2.mem hp)

end Stability

/-! ### Idempotence -/

section Idempotence

variable {M : Type}

theorem stE_pointwise_idem {fm : M → Ty → Bool} {rc : RC M} {kk : String}
    {x y : Entry} (h : stE fm rc kk x = .ok y) : stE fm rc kk y = .ok y := by
  cases x with
  | nonclass t =>
    have ht := Except.ok.inj ((stE_nonclass fm rc kk t).symm.trans h)
    subst ht
    exact stE_nonclass fm rc kk t
  | cls d =>
    obtain ⟨d1, hy, _, stab⟩ := stE_cls_ok h
    subst hy
    exact stab d1 (Shrinks.refl d1)

theorem saE_pointwise_idem {rc : RC M} {kk : String} {x y : Entry}
    (h : saE rc kk x = .ok y) : saE rc kk y = .ok y := by
  cases x with
  | nonclass t =>
    have ht := Except.ok.inj ((saE_nonclass rc kk t).symm.trans h)
    subst ht
    exact saE_nonclass rc kk t
  | cls d =>
    obtain ⟨d1, hy, _, stab⟩ := saE_cls_ok h
    subst hy
    exact stab d1 (Shrinks.refl d1)

theorem imE_pointwise_idem {rc : RC M} {kk : String} {x y : Entry}
    (h : imE rc kk x = .ok y) : imE rc kk y = .ok y := by
  cases x with
  | nonclass t =>
    have ht := Except.ok.inj ((imE_nonclass rc kk t).symm.trans h)
    subst ht
    exact imE_nonclass rc kk t
  | cls d =>
    obtain ⟨d1, hy, _, stab⟩ := imE_cls_ok h
    subst hy
    exact stab d1 (Shrinks.refl d1)

theorem auE_pointwise_idem {known : Ty → Bool} {rc : RC M} {x : Entry} :
    auE known rc (auE known rc x) = auE known rc x := by
  cases x with
  | nonclass t => rw [auE_nonclass, auE_nonclass]
  | cls d =>
    obtain ⟨d1, h1, _, stab⟩ := auE_cls known rc d
    rw [h1]
    exact stab d1 (Shrinks.refl d1)

/-- One registry entry after the four passes with `skip_methods` unset:
each pass leaves the final entry unchanged. -/
theorem entryChainIdem {fm : M → Ty → Bool} {known : Ty → Bool} {rc : RC M}
    {kk : String} {x a b c y : Entry}
    (h1 : stE fm rc kk x = .ok a) (h2 : saE rc kk a = .ok b)
    (h3 : auE known rc b = c) (h4 : imE rc kk c = .ok y) :
    stE fm rc kk y = .ok y ∧ saE rc kk y = .ok y ∧ auE known rc y = y ∧
      imE rc kk y = .ok y := by
  cases x with
  | nonclass t =>
    have ha := Except.ok.inj ((stE_nonclass fm rc kk t).symm.trans h1)
    subst ha
    have hb := Except.ok.inj ((saE_nonclass rc kk t).symm.trans h2)
    subst hb
    have hc := (auE_nonclass known rc t).symm.trans h3
    rw [← hc] at h4
    have hy := Except.ok.inj ((imE_nonclass rc kk t).symm.trans h4)
    subst hy
    exact ⟨stE_nonclass fm rc kk t, saE_nonclass rc kk t,
      auE_nonclass known rc t, imE_nonclass rc kk t⟩
  | cls d =>
    obtain ⟨d1, ha, hsf1, stab1⟩ := stE_cls_ok h1
    subst ha
    obtain ⟨dtwo, hb, hsf2, stab2⟩ := saE_cls_ok h2
    subst hb
    obtain ⟨dthree, hc0, hsf3, stab3⟩ := auE_cls known rc dtwo
    have hc : c = .cls dthree := h3.symm.trans hc0
    subst hc
    obtain ⟨d4, hy, hsf4, stab4⟩ := imE_cls_ok h4
    subst hy
    exact ⟨stab1 d4 ((hsf4.trans hsf3).trans hsf2),
      stab2 d4 (hsf4.trans hsf3),
      stab3 d4 hsf4,
      stab4 d4 (Shrinks.refl d4)⟩

theorem mapEnvM_idem (f : String → Entry → Except String Entry)
    (hf : ∀ kk x y, f kk x = .ok y → f kk y = .ok y) {env env1 : Env}
    (h : mapEnvM f env = .ok env1) : mapEnvM f env1 = .ok env1 :=
  mapEnvM_of_envRel
    (envRel_diag (envRel_of_mapEnvM h) (fun kk x y hxy => hf kk x y hxy))

theorem mapMod_idem (g : Entry → Entry) (hg : ∀ e, g (g e) = g e)
    (m : Mod) : (m.map (fun q => (q.1, g q.2))).map (fun q => (q.1, g q.2)) =
      m.map (fun q => (q.1, g q.2)) := by
  induction m with
  | nil => rfl
  | cons q rest ih =>
    simp only [List.map_cons, ih, hg q.2]

theorem mapEnv_idem (g : Entry → Entry) (hg : ∀ e, g (g e) = g e)
    (env : Env) : mapEnv g (mapEnv g env) = mapEnv g env := by
  induction env with
  | nil => rfl
  | cons p rest ih =>
    simp only [mapEnv, List.map_cons] at ih ⊢
    rw [mapMod_idem g hg p.2]
    rw [show List.map (fun p2 => (p2.1, List.map (fun q => (q.1, g q.2)) p2.2))
        (List.map (fun p2 => (p2.1, List.map (fun q => (q.1, g q.2)) p2.2)) rest)
      = List.map (fun p2 => (p2.1, List.map (fun q => (q.1, g q.2)) p2.2)) rest
      from ih]

theorem skip_types_idem (fm : M → Ty → Bool) (rc : RC M) (env : Env) :
    (skip_types fm rc env).bind (skip_types fm rc) = skip_types fm rc env := by
  rcases h : skip_types fm rc env with s | e1
  · rfl
  · show skip_types fm rc e1 = .ok e1
    rw [skip_types_eq] at h ⊢
    exact mapEnvM_idem (stE fm rc) (fun kk x y hxy => stE_pointwise_idem hxy) h

theorem skip_attrs_idem (rc : RC M) (env : Env) :
    (skip_attrs rc env).bind (skip_attrs rc) = skip_attrs rc env := by
  rcases h : skip_attrs rc env with s | e1
  · rfl
  · show skip_attrs rc e1 = .ok e1
    rw [skip_attrs_eq] at h ⊢
    exact mapEnvM_idem (saE rc) (fun kk x y hxy => saE_pointwise_idem hxy) h

theorem include_methods_idem (rc : RC M) (env : Env) :
    (include_methods rc env).bind (include_methods rc) =
      include_methods rc env := by
  rcases h : include_methods rc env with s | e1
  · rfl
  · show include_methods rc e1 = .ok e1
    rw [include_methods_eq] at h ⊢
    exact mapEnvM_idem (imE rc) (fun kk x y hxy => imE_pointwise_idem hxy) h

theorem skip_auto_idem (known : Ty → Bool) (rc : RC M) (env : Env) :
    skip_auto known rc (skip_auto known rc env) = skip_auto known rc env := by
  rw [skip_auto_eq known rc env, skip_auto_eq known rc (mapEnv (auE known rc) env)]
  exact mapEnv_idem _ (fun e => auE_pointwise_idem) env

/-- Decompose a successful pipeline run with `skip_methods` unset into
its three effectful stages. -/
theorem execute_ok_chain {fm : M → Ty → Bool} {known : Ty → Bool}
    {rc : RC M} {env env4 : Env} (hm : rc.skipmethods = none)
    (h : execute fm known rc env = .ok env4) :
    ∃ e1 e3, skip_types fm rc env = .ok e1 ∧ skip_attrs rc e1 = .ok e3 ∧
      include_methods rc (skip_auto known rc e3) = .ok env4 := by
  rw [execute] at h
  rcases h1 : skip_types fm rc env with s | e1 <;> rw [h1] at h
  · exact absurd h (by simp)
  simp only at h
  rw [show skip_methods rc e1 = .ok e1 from by simp only [skip_methods, hm]] at h
  simp only at h
  rcases h3 : skip_attrs rc e1 with s | e3 <;> rw [h3] at h
  · exact absurd h (by simp)
  simp only at h
  exact ⟨e1, e3, rfl, h3, h⟩

/-- The five-pass pipeline with `skip_methods` unset is idempotent. -/
theorem execute_idem {fm : M → Ty → Bool} {known : Ty → Bool} {rc : RC M}
    (hm : rc.skipmethods = none) (env : Env) :
    (execute fm known rc env).bind (execute fm known rc) =
      execute fm known rc env := by
  rcases h : execute fm known rc env with s | env4
  · rfl
  show execute fm known rc env4 = .ok env4
  obtain ⟨e1, e3, h1, h3, h5⟩ := execute_ok_chain hm h
  rw [skip_types_eq] at h1
  rw [skip_attrs_eq] at h3
  rw [include_methods_eq, skip_auto_eq] at h5
  have r1 := envRel_of_mapEnvM h1
  have r3 := envRel_of_mapEnvM h3
  have rau := envRel_of_mapEnv (g := auE known rc) e3
  have r4 := envRel_of_mapEnvM h5
  have rall := envRel_comp (envRel_comp (envRel_comp r1 r3) rau) r4
  have hchain : ∀ kk x w, (fun kk x w => ∃ z2,
      (∃ z1, (∃ y, stE fm rc kk x = .ok y ∧ saE rc kk y = .ok z1) ∧
        z2 = auE known rc z1) ∧ imE rc kk z2 = .ok w) kk x w →
      stE fm rc kk w = .ok w ∧ saE rc kk w = .ok w ∧
        auE known rc w = w ∧ imE rc kk w = .ok w := by
    intro kk x w hr
    obtain ⟨z2, ⟨z1, ⟨y, hst, hsa⟩, hau⟩, him⟩ := hr
    exact entryChainIdem hst hsa hau.symm him
  have hst4 : skip_types fm rc env4 = .ok env4 := by
    rw [skip_types_eq]
    exact mapEnvM_of_envRel (envRel_diag rall (fun kk x w hr => (hchain kk x w hr).1))
  have hsa4 : skip_attrs rc env4 = .ok env4 := by
    rw [skip_attrs_eq]
    exact mapEnvM_of_envRel (envRel_diag rall (fun kk x w hr => (hchain kk x w hr).2.1))
  have hau4 : skip_auto known rc env4 = env4 := by
    rw [skip_auto_eq]
    exact mapEnv_of_envRel
      (envRel_diag rall (fun kk x w hr => ((hchain kk x w hr).2.2.1).symm))
  have him4 : include_methods rc env4 = .ok env4 := by
    rw [include_methods_eq]
    exact mapEnvM_of_envRel (envRel_diag rall (fun kk x w hr => (hchain kk x w hr).2.2.2))
  have hsm4 : skip_methods rc env4 = .ok env4 := by
    simp only [skip_methods, hm]
  simp only [execute, hst4, hsm4, hsa4, hau4, him4]

end Idempotence

/-! ### Further helper lemmas for the individual claims -/

section ClaimHelpers

/-- Decidable equality on results, for concrete evaluations. -/
def exceptDecEq {ε α : Type} [DecidableEq ε] [DecidableEq α] :
    DecidableEq (Except ε α)
  | .error e, .error f =>
    if h : e = f then isTrue (by rw [h])
    else isFalse (fun hc => h (Except.error.inj hc))
  | .error _, .ok _ => isFalse (fun hc => Except.noConfusion hc)
  | .ok _, .error _ => isFalse (fun hc => Except.noConfusion hc)
  | .ok x, .ok y =>
    if h : x = y then isTrue (by rw [h])
    else isFalse (fun hc => h (Except.ok.inj hc))

instance {ε α : Type} [DecidableEq ε] [DecidableEq α] :
    DecidableEq (Except ε α) := exceptDecEq

theorem keyMem_of_alookup {α : Type} {k : String} {l : List (String × α)}
    {v : α} (h : alookup k l = some v) : keyMem k l = true := by
  rw [alookup] at h
  rcases hf : l.find? (fun p => decide (p.1 = k)) with _ | p <;> rw [hf] at h
  · cases h
  have hp1 := List.mem_of_find?_eq_some hf
  have hp2 := List.find?_some hf
  exact List.any_eq_true.mpr ⟨p, hp1, hp2⟩

theorem isSome_false_eq_none {α : Type} {o : Option α}
    (h : o.isSome = false) : o = none := by
  cases o
  · rfl
  · cases h

theorem delKeyG_length_of_nodup {α κ : Type} [DecidableEq κ] {key : α → κ}
    {k : κ} {l : List α} (hnd : (l.map key).Nodup)
    (hk : ∃ p ∈ l, key p = k) : l.length = (delKeyG key k l).length + 1 := by
  induction l with
  | nil => rcases hk with ⟨p, hp, _⟩; cases hp
  | cons x rest ih =>
    simp only [List.map_cons, List.nodup_cons] at hnd
    by_cases hx : key x = k
    · have hdel : delKeyG key k (x :: rest) = rest := by
        rw [delKeyG, List.filter_cons]
        simp only [hx, decide_True, Bool.not_true, Bool.false_eq_true, if_false]
        rw [List.filter_eq_self]
        intro a ha
        have hne : key a ≠ k := by
          intro hc
          apply hnd.1
          have hmm : key a ∈ List.map key rest := List.mem_map_of_mem key ha
          rw [hc, ← hx] at hmm
          exact hmm
        simpa using hne
      rw [hdel, List.length_cons]
    · rw [delKeyG_cons k x rest hx]
      rcases hk with ⟨p, hp, hpk⟩
      rcases List.mem_cons.mp hp with hpx | hpr
      · subst hpx; exact absurd hpk hx
      · have hlen := ih hnd.2 ⟨p, hpr, hpk⟩
        simp only [List.length_cons, hlen]

/-- The per-method canonicalization order of `skip_auto`: the first
unknown type is the first failing element of the list
return-type-then-argument-types. -/
theorem firstUnknown_eq_find (known : Ty → Bool) (ret : Option Ty)
    (args : List Arg) :
    firstUnknown known ret args =
      (ret.toList ++ args.map Arg.ty).find? (fun t => !known t) := by
  have hargs : (args.map Arg.ty).find? (fun t => !known t) =
      (args.find? (fun a => !known a.ty)).map Arg.ty := by
    rw [List.find?_map]
    rfl
  cases ret with
  | none =>
    simp only [firstUnknown, Option.toList_none, List.nil_append, hargs]
  | some r =>
    by_cases hr : known r
    · simp only [firstUnknown, hr, Bool.not_true, Bool.false_eq_true,
        if_false, Option.toList_some, List.singleton_append]
      rw [List.find?_cons_of_neg _ (by simp [hr]), hargs]
    · have hr2 : known r = false := Bool.eq_false_iff.mpr hr
      simp only [firstUnknown, hr2, Bool.not_false, if_true,
        Option.toList_some, List.singleton_append]
      rw [List.find?_cons_of_pos _ (by simp [hr2])]

theorem eq_of_map_nodup {α κ : Type} {key : α → κ} {l : List α}
    (h : (l.map key).Nodup) {p q : α} (hp : p ∈ l) (hq : q ∈ l)
    (hk : key p = key q) : p = q :=
  List.inj_on_of_nodup_map h hp hq hk

theorem skipAutoClass_attrs_eq {known : Ty → Bool} {d : Desc}
    (hnd : (d.attrs.map Prod.fst).Nodup) :
    (skipAutoClass known d).attrs = d.attrs.filter (fun p => known p.2) := by
  show delKeysG Prod.fst
    ((d.attrs.filter (fun p => !known p.2)).map Prod.fst) d.attrs = _
  rw [delKeysG_eq_filter]
  apply List.filter_congr
  intro p hp
  by_cases hk : known p.2 = true
  · rw [hk]
    have hany : ((d.attrs.filter (fun q => !known q.2)).map Prod.fst).any
        (fun k => decide (p.1 = k)) = false := by
      rw [List.any_eq_false]
      intro k hkmem
      simp only [decide_eq_true_eq]
      intro hpk
      rcases List.mem_map.mp hkmem with ⟨q, hq, hqk⟩
      have hqf := List.mem_filter.mp hq
      have hpq : p = q := eq_of_map_nodup hnd hp hqf.1 (by rw [hpk, hqk])
      rw [← hpq] at hqf
      rw [hk] at hqf
      exact absurd hqf.2 (by simp)
    rw [hany]
    rfl
  · have hk2 : known p.2 = false := Bool.eq_false_iff.mpr hk
    rw [hk2]
    have hmem : p.1 ∈ (d.attrs.filter (fun q => !known q.2)).map Prod.fst :=
      List.mem_map_of_mem Prod.fst
        (List.mem_filter.mpr ⟨hp, by rw [hk2]; rfl⟩)
    have hany : ((d.attrs.filter (fun q => !known q.2)).map Prod.fst).any
        (fun k => decide (p.1 = k)) = true := by
      apply List.any_eq_true.mpr
      exact ⟨p.1, hmem, by simp⟩
    rw [hany]
    rfl

theorem skipAutoClass_methods_eq {known : Ty → Bool} {d : Desc}
    (hnd : (d.methods.map Prod.fst).Nodup) :
    (skipAutoClass known d).methods =
      d.methods.filter (fun p => !(firstUnknown known p.2 p.1.args).isSome) := by
  show delKeysG Prod.fst
    ((d.methods.filter
      (fun p => (firstUnknown known p.2 p.1.args).isSome)).map Prod.fst)
    d.methods = _
  rw [delKeysG_eq_filter]
  apply List.filter_congr
  intro p hp
  by_cases hk : (firstUnknown known p.2 p.1.args).isSome = true
  · rw [hk]
    have hmem : p.1 ∈ (d.methods.filter
        (fun q => (firstUnknown known q.2 q.1.args).isSome)).map Prod.fst :=
      List.mem_map_of_mem Prod.fst (List.mem_filter.mpr ⟨hp, hk⟩)
    have hany : ((d.methods.filter
        (fun q => (firstUnknown known q.2 q.1.args).isSome)).map Prod.fst).any
        (fun k => decide (p.1 = k)) = true := by
      apply List.any_eq_true.mpr
      exact ⟨p.1, hmem, by simp⟩
    rw [hany]
  · have hk2 : (firstUnknown known p.2 p.1.args).isSome = false :=
      Bool.eq_false_iff.mpr hk
    rw [hk2]
    have hany : ((d.methods.filter
        (fun q => (firstUnknown known q.2 q.1.args).isSome)).map Prod.fst).any
        (fun k => decide (p.1 = k)) = false := by
      rw [List.any_eq_false]
      intro k hkmem
      simp only [decide_eq_true_eq]
      intro hpk
      rcases List.mem_map.mp hkmem with ⟨q, hq, hqk⟩
      have hqf := List.mem_filter.mp hq
      have hpq : p = q := eq_of_map_nodup hnd hp hqf.1 (by rw [hpk, hqk])
      rw [← hpq, hk2] at hqf
      exact absurd hqf.2 (by simp)
    rw [hany]

theorem setupList_error {l : List Raw} {r : Raw} {e : String}
    (hr : r ∈ l) (he : TypeMatcher r = .error e) :
    ∃ e2, setupList l = .error e2 := by
  induction l with
  | nil => cases hr
  | cons x rest ih =>
    rcases hx : TypeMatcher x with ex | tx
    · exact ⟨ex, by rw [setupList, hx]⟩
    · rcases List.mem_cons.mp hr with hrx | hrr
      · subst hrx
        rw [hx] at he
        cases he
      · rcases ih hrr with ⟨e2, h2⟩
        exact ⟨e2, by rw [setupList, hx, h2]⟩

theorem setupMap_error {m : List (String × List Raw)} {kls : String}
    {l : List Raw} {r : Raw} {e : String} (hm : (kls, l) ∈ m) (hr : r ∈ l)
    (he : TypeMatcher r = .error e) : ∃ e2, setupMap m = .error e2 := by
  induction m with
  | nil => cases hm
  | cons x rest ih =>
    rcases hx : setupList x.2 with ex | tx
    · exact ⟨ex, by rw [show x = (x.1, x.2) from rfl, setupMap, hx]⟩
    · rcases List.mem_cons.mp hm with hmx | hmr
      · rcases setupList_error hr he with ⟨e2, h2⟩
        rw [← hmx] at hx
        rw [hx] at h2
        cases h2
      · rcases ih hmr with ⟨e2, h2⟩
        exact ⟨e2, by rw [show x = (x.1, x.2) from rfl, setupMap, hx, h2]⟩

/-- A successful pipeline run ends with the `include_methods` pass applied
to the state left by the four earlier passes. -/
theorem execute_ok_last {M : Type} {fm : M → Ty → Bool} {known : Ty → Bool}
    {rc : RC M} {env env4 : Env} (h : execute fm known rc env = .ok env4) :
    ∃ e3, include_methods rc e3 = .ok env4 := by
  rw [execute] at h
  split at h
  · exact absurd h (by simp)
  rename_i e1 h1
  split at h
  · exact absurd h (by simp)
  rename_i e2 h2
  split at h
  · exact absurd h (by simp)
  rename_i e3 h3
  exact ⟨skip_auto known rc e3, h⟩

/-- An entry surviving a successful `include_methods` pass, for a keyed
class whose registry key equals its target name, has all its method
names in the keep list. -/
theorem include_methods_names {M : Type} {rc : RC M}
    {rules : List (String × List String)} {envIn env4 : Env}
    (hrules : rc.includemethods = some rules)
    (h : include_methods rc envIn = .ok env4) :
    ∀ mk mod, (mk, mod) ∈ env4 → ∀ kk d keeps,
      (kk, Entry.cls d) ∈ mod → kk = d.tarname →
      alookup kk rules = some keeps →
      ∀ p ∈ d.methods, keeps.any (fun s => decide (s = p.1.name)) = true := by
  rw [include_methods_eq] at h
  have hr := envRel_of_mapEnvM h
  intro mk mod hmod kk d keeps hcls htn hlk p hp
  rcases envRel_mem hr hmod with ⟨moda, _, hmr⟩
  rcases modRel_mem hmr hcls with ⟨x, _, hx⟩
  cases x with
  | nonclass t =>
    rw [imE_nonclass] at hx
    exact absurd (Except.ok.inj hx) (fun hc => Entry.noConfusion hc)
  | cls dx =>
    rw [imE, hrules] at hx
    simp only [includeMethodsEntry] at hx
    by_cases hsel : keyMem dx.tarname rules = true
    · rw [if_pos hsel] at hx
      split at hx
      · exact absurd hx (by simp)
      · rename_i keeps0 hlk0
        have hkeq : keeps0 = keeps := Option.some.inj (hlk0.symm.trans hlk)
        subst hkeq
        have hd2 := Entry.cls.inj (Except.ok.inj hx)
        rw [← hd2] at hp
        have hp2 : p ∈ dx.methods.filter
            (fun q => keeps0.any (fun s => decide (s = q.1.name))) := hp
        exact (List.mem_filter.mp hp2).2
    · rw [if_neg hsel] at hx
      have hd2 := Entry.cls.inj (Except.ok.inj hx)
      rw [htn] at hlk
      rw [← hd2] at hlk
      exact absurd (keyMem_of_alookup hlk) hsel

end ClaimHelpers

/-! ### Claims -/

/-- C1: for every class description and matcher list passed to
`modify_desc`, a method signature survives if and only if no matcher
flatmatches its return type (when the method has one, `retHit`) and the
left-to-right scan of its declared arguments (`argHit`, a `find?` over
the argument list in declared order, matchers tried in list order inside)
finds no match; equivalently a signature is deleted exactly when the
return check — performed before any argument — or the ordered first-match
argument scan hits. -/
theorem c1_method_deleted_iff {M : Type} (fm : M → Ty → Bool)
    (skips : List M) (d : Desc)
    (hnd : (d.methods.map Prod.fst).Nodup) :
    ∀ p ∈ d.methods,
      (p ∈ (modify_desc fm skips d).methods ↔
        retHit fm skips p.2 = false ∧ argHit fm skips p.1.args = none) := by
  intro p hp
  constructor
  · intro hmem
    have hhit := modify_desc_methods_not_hit fm skips hmem
    rw [methodHit, Bool.or_eq_false_iff] at hhit
    exact ⟨hhit.1, isSome_false_eq_none hhit.2⟩
  · rintro ⟨hret, harg⟩
    rw [modify_desc_methods_eq_filter fm skips hnd, List.mem_filter]
    refine ⟨hp, ?_⟩
    rw [methodHit, hret, harg]
    rfl

/-- Concrete instance of C1: a one-method class whose only argument is a
`float64` (scenario C of the spec, with a matcher in `Contains` mode). -/
def c1d : Desc :=
  ⟨"K", [], [(⟨"foo", [⟨"a", Ty.tup [Ty.atom "vector", Ty.atom "float64"]⟩]⟩,
    none)]⟩

theorem c1_method_deleted_iff_witness :
    ((modify_desc flatmatches [Ty.atom "float64"] c1d).methods = [] ∧
      ((⟨"foo", [⟨"a", Ty.tup [Ty.atom "vector", Ty.atom "float64"]⟩]⟩,
        (none : Option Ty)) ∈
          (modify_desc flatmatches [Ty.atom "float64"] c1d).methods ↔
        retHit flatmatches [Ty.atom "float64"] none = false ∧
        argHit flatmatches [Ty.atom "float64"]
          [⟨"a", Ty.tup [Ty.atom "vector", Ty.atom "float64"]⟩] = none)) :=
  ⟨by decide,
    c1_method_deleted_iff flatmatches [Ty.atom "float64"] c1d (by decide)
      (⟨"foo", [⟨"a", Ty.tup [Ty.atom "vector", Ty.atom "float64"]⟩]⟩, none)
      (by decide)⟩

/-- C2: the attributes surviving `modify_desc` are exactly those whose
type no matcher flatmatches; and in particular a class `Foo` with attrs
`x : float64, y : int32` filtered by the global matcher list
`[float64]` keeps exactly `y : int32` (scenario A). -/
theorem c2_attrs_exactly_unmatched :
    (∀ {M : Type} (fm : M → Ty → Bool) (skips : List M) (d : Desc),
      (d.attrs.map Prod.fst).Nodup →
      ∀ p, p ∈ (modify_desc fm skips d).attrs ↔
        (p ∈ d.attrs ∧ attrHit fm skips p.2 = false))
    ∧ modify_desc flatmatches [Ty.atom "float64"]
        ⟨"Foo", [("x", Ty.atom "float64"), ("y", Ty.atom "int32")], []⟩ =
      ⟨"Foo", [("y", Ty.atom "int32")], []⟩ := by
  constructor
  · intro M fm skips d hnd p
    rw [modify_desc_attrs_eq_filter fm skips hnd, List.mem_filter]
    constructor
    · rintro ⟨hmem, hf⟩
      refine ⟨hmem, ?_⟩
      cases hh : attrHit fm skips p.2
      · rfl
      · rw [hh] at hf
        cases hf
    · rintro ⟨hmem, hf⟩
      exact ⟨hmem, by rw [hf]; rfl⟩
  · decide

theorem c2_attrs_exactly_unmatched_witness :
    (("y", Ty.atom "int32") ∈ (modify_desc flatmatches [Ty.atom "float64"]
      ⟨"Foo", [("x", Ty.atom "float64"), ("y", Ty.atom "int32")], []⟩).attrs) :=
  (c2_attrs_exactly_unmatched.1 flatmatches [Ty.atom "float64"]
    ⟨"Foo", [("x", Ty.atom "float64"), ("y", Ty.atom "int32")], []⟩
    (by decide) ("y", Ty.atom "int32")).mpr (by decide)

/-- C3: with `skipauto` set (to any value `b`), after the `skip_auto`
pass no surviving attribute of any class has a type the canonicalizer
rejects, and no surviving method has a rejected return or argument type;
removal is two-phase — the deletions are exactly a filter of the
original mappings, computed from a scan of the original (mark-then-
delete), shown on class descriptions with distinct keys — and the
per-method check stops at the first failing type, the return type being
checked before the arguments in declared order (`firstUnknown` is the
`find?` over return-then-arguments). -/
theorem c3_skip_auto_sound {M : Type} (known : Ty → Bool) (rc : RC M)
    (b : Bool) (hb : rc.skipauto = some b) (env : Env) :
    (∀ mk mod, (mk, mod) ∈ skip_auto known rc env →
      ∀ kk d, (kk, Entry.cls d) ∈ mod →
        (∀ p ∈ d.attrs, known p.2 = true) ∧
        (∀ p ∈ d.methods, firstUnknown known p.2 p.1.args = none))
    ∧ (∀ d : Desc, (d.attrs.map Prod.fst).Nodup →
        (d.methods.map Prod.fst).Nodup →
        (skipAutoClass known d).attrs =
          d.attrs.filter (fun p => known p.2) ∧
        (skipAutoClass known d).methods = d.methods.filter
          (fun p => !(firstUnknown known p.2 p.1.args).isSome))
    ∧ (∀ ret args, firstUnknown known ret args =
        (ret.toList ++ args.map Arg.ty).find? (fun t => !known t)) := by
  refine ⟨?_,
    fun d h1 h2 => ⟨skipAutoClass_attrs_eq h1, skipAutoClass_methods_eq h2⟩,
    fun ret args => firstUnknown_eq_find known ret args⟩
  intro mk mod hmod kk d hcls
  rw [skip_auto_eq] at hmod
  have hr := envRel_of_mapEnv (g := auE known rc) env
  rcases envRel_mem hr hmod with ⟨moda, _, hmr⟩
  rcases modRel_mem hmr hcls with ⟨x, _, hx⟩
  cases x with
  | nonclass t =>
    rw [auE_nonclass] at hx
    exact absurd hx (fun hc => Entry.noConfusion hc)
  | cls d0 =>
    simp only [auE, hb, skipAutoEntry] at hx
    have hd := Entry.cls.inj hx
    constructor
    · intro p hp
      rw [hd] at hp
      exact skipAutoClass_attrs_known hp
    · intro p hp
      rw [hd] at hp
      exact isSome_false_eq_none (skipAutoClass_methods_known hp)

/-- Inputs for the C3 witness: a class with one unknown-typed and one
known-typed attribute. -/
def c3d : Desc := ⟨"Foo", [("z", Ty.atom "unknowncls"), ("y", Ty.atom "int32")], []⟩

def c3known : Ty → Bool := fun t => decide (t = Ty.atom "int32")

def c3rc : RC Ty := ⟨none, none, none, none, none, some true⟩

theorem c3_skip_auto_sound_witness :
    (skipAutoClass c3known c3d).attrs =
      c3d.attrs.filter (fun p => c3known p.2) :=
  ((c3_skip_auto_sound c3known c3rc true rfl []).2.1 c3d (by decide)
    (by decide)).1

/-- Input for C6: a normalized per-class `skiptypes` for class `Foo`. -/
def c6raw : RCRaw :=
  ⟨some (.perClass [("Foo", [Raw.str "float64"])]), none, none, none, none⟩

def c6rc : RC Ty :=
  ⟨some (.perClass [("Foo", [Ty.atom "float64"])]), none, none, none, none,
    none⟩

def c6env : Env :=
  [("m", [("Foo", Entry.cls ⟨"Foo", [("x", Ty.atom "float64")], []⟩)])]

/-- C6 (code bug): `setup` normalizes the per-class mapping into
`rc.skiptypes` (the `modify_desc` docstring names `rc.skiptypes` as the
source of the matcher lists), but line 238 of `skip_types` reads
`rc.skips`, which no code assigns; so on a registry containing a class
named as a key the pass raises `AttributeError` instead of applying the
class's normalized matcher list. -/
theorem c6_perclass_reads_absent_skips :
    setup c6raw = .ok c6rc ∧
    skip_types flatmatches c6rc c6env = .error "AttributeError: skips" := by
  constructor
  · decide
  · decide

/-- Inputs for C8: `skipauto` explicitly set to `False`, one
unknown-typed attribute. -/
def c8rc : RC Ty := ⟨none, none, none, none, none, some false⟩

def c8known : Ty → Bool := fun t => decide (t = Ty.atom "int32")

def c8env : Env :=
  [("m", [("Foo", Entry.cls ⟨"Foo", [("z", Ty.atom "unknowncls")], []⟩)])]

/-- C8 (code bug): the guard on line 315 tests only
`rc.skipauto is NotSpecified`, so with `skipauto = False` — documented as
"If this is True then methods and attributes with any types that are
unknown will be filtered out" — the pass still runs and removes the
unknown-typed attribute instead of leaving the registry unchanged. -/
theorem c8_skip_auto_runs_when_false :
    c8rc.skipauto = some false ∧
    skip_auto c8known c8rc c8env =
      [("m", [("Foo", Entry.cls ⟨"Foo", [], []⟩)])] ∧
    skip_auto c8known c8rc c8env ≠ c8env := by
  refine ⟨rfl, by decide, by decide⟩

/-- Inputs for C4: two overloads of method `foo` in class `C` and a
`skipmethods` rule naming the prefix `foo`. -/
def c4rc : RC Ty := ⟨none, none, some [("C", ["foo"])], none, none, none⟩

def c4known : Ty → Bool := fun _ => true

def c4env : Env :=
  [("m", [("C", Entry.cls ⟨"C", [],
    [(⟨"foo", [⟨"a", Ty.atom "i"⟩]⟩, none),
     (⟨"foo", [⟨"b", Ty.atom "i"⟩]⟩, none)]⟩)])]

/-- C4 counterexample: `skip_methods` removes only one matching overload
per prefix per run, so a second run of the full pipeline removes the
second overload and the pipeline is not idempotent. -/
theorem c4_counterexample :
    (execute flatmatches c4known c4rc c4env).bind
        (execute flatmatches c4known c4rc) ≠
      execute flatmatches c4known c4rc c4env := by decide

/-- C4 amended: each of the `skip_types`, `skip_attrs`, `skip_auto` and
`include_methods` passes is idempotent, and the full five-pass pipeline
applied twice yields the same registry as applied once whenever
`skip_methods` is unset; the `skip_methods` pass itself is not
idempotent (each prefix rule deletes one matching overload per run). -/
theorem c4_pipeline_idem_amended {M : Type} (fm : M → Ty → Bool)
    (known : Ty → Bool) (rc : RC M) (env : Env)
    (hm : rc.skipmethods = none) :
    ((execute fm known rc env).bind (execute fm known rc) =
      execute fm known rc env)
    ∧ ((skip_types fm rc env).bind (skip_types fm rc) = skip_types fm rc env)
    ∧ ((skip_attrs rc env).bind (skip_attrs rc) = skip_attrs rc env)
    ∧ (skip_auto known rc (skip_auto known rc env) = skip_auto known rc env)
    ∧ ((include_methods rc env).bind (include_methods rc) =
      include_methods rc env) :=
  ⟨execute_idem hm env, skip_types_idem fm rc env, skip_attrs_idem rc env,
    skip_auto_idem known rc env, include_methods_idem rc env⟩

/-- A rule set exercising the four other passes, `skip_methods` unset. -/
def c4rcW : RC Ty :=
  ⟨some (.skipAll [Ty.atom "float64"]), none, none, some [("C", ["x"])],
    some [("C", ["foo"])], some true⟩

theorem c4_pipeline_idem_amended_witness :
    (execute flatmatches c4known c4rcW c4env).bind
        (execute flatmatches c4known c4rcW) =
      execute flatmatches c4known c4rcW c4env :=
  (c4_pipeline_idem_amended flatmatches c4known c4rcW c4env rfl).1

/-- Inputs for C5: the class description with target name `B` is stored
under registry key `A`, and both names are `includemethods` keys with
different keep lists. -/
def c5rc : RC Ty :=
  ⟨none, none, none, none, some [("A", ["f"]), ("B", ["g"])], none⟩

def c5env : Env :=
  [("m", [("A", Entry.cls ⟨"B", [],
    [(⟨"f", []⟩, none), (⟨"g", []⟩, none)]⟩)])]

/-- C5 counterexample: for the class named `B` (a key of
`includemethods` with keep list `[g]`), the pass keeps exactly the `f`
overloads — the list looked up under the registry key `A` — rather than
the `g` signatures that the claim's keep set prescribes. -/
theorem c5_counterexample :
    include_methods c5rc c5env =
      .ok [("m", [("A", Entry.cls ⟨"B", [], [(⟨"f", []⟩, none)]⟩)])] ∧
    include_methods c5rc c5env ≠
      .ok [("m", [("A", Entry.cls ⟨"B", [], [(⟨"g", []⟩, none)]⟩)])] :=
  ⟨by decide, by decide⟩

/-- C5 amended: for every class whose registry key equals its target
name and is a key of `include_methods`, the pass replaces the methods
mapping by exactly the previously surviving signatures whose method name
is in the keep set (a filter by name: all overloads of a kept name
survive with their method info unchanged); and after the full pipeline
— `include_methods` running last — every surviving method name of such
a class is in the keep set. -/
theorem c5_include_amended {M : Type} (fm : M → Ty → Bool)
    (known : Ty → Bool) (rc : RC M) :
    (∀ rules keeps kk (d : Desc), rc.includemethods = some rules →
      kk = d.tarname → alookup kk rules = some keeps →
      imE rc kk (.cls d) = .ok (.cls ⟨d.tarname, d.attrs,
        d.methods.filter
          (fun p => keeps.any (fun s => decide (s = p.1.name)))⟩))
    ∧ (∀ rules env env4, rc.includemethods = some rules →
      execute fm known rc env = .ok env4 →
      ∀ mk mod, (mk, mod) ∈ env4 → ∀ kk d keeps,
        (kk, Entry.cls d) ∈ mod → kk = d.tarname →
        alookup kk rules = some keeps →
        ∀ p ∈ d.methods,
          keeps.any (fun s => decide (s = p.1.name)) = true) := by
  constructor
  · intro rules keeps kk d hrules htn hlk
    have hsel : keyMem d.tarname rules = true := by
      rw [← htn]
      exact keyMem_of_alookup hlk
    rw [imE, hrules]
    simp only [includeMethodsEntry, hsel, if_true, hlk]
    rfl
  · intro rules env env4 hrules hex mk mod hmod kk d keeps hcls htn hlk p hp
    obtain ⟨e3, hinc⟩ := execute_ok_last hex
    exact include_methods_names hrules hinc mk mod hmod kk d keeps hcls htn
      hlk p hp

/-- A keyed class whose registry key equals its target name, for C5. -/
def c5rcW : RC Ty := ⟨none, none, none, none, some [("B", ["g"])], none⟩

theorem c5_include_amended_witness :
    imE c5rcW "B" (.cls ⟨"B", [], [(⟨"f", []⟩, none), (⟨"g", []⟩, none)]⟩) =
      .ok (.cls ⟨"B", [],
        ([(⟨"f", []⟩, none), (⟨"g", []⟩, none)] :
            List (Sig × Option Ty)).filter
          (fun p =>
            (["g"] : List String).any (fun s => decide (s = p.1.name)))⟩) :=
  (c5_include_amended flatmatches c4known c5rcW).1 [("B", ["g"])] ["g"] "B"
    ⟨"B", [], [(⟨"f", []⟩, none), (⟨"g", []⟩, none)]⟩ rfl rfl (by decide)

/-- Inputs for C7: class with target name `Computer` stored under
registry key `Comp`; `skipmethods` keys the target name. -/
def c7rc : RC Ty := ⟨none, none, some [("Computer", ["blowUp"])], none, none, none⟩

def c7env : Env :=
  [("m", [("Comp", Entry.cls ⟨"Computer", [], [(⟨"blowUp", []⟩, none)]⟩)])]

/-- C7 counterexample: the class named `Computer` in `skipmethods` has a
method matching the prefix `blowUp`, but the pass raises `KeyError`
looking the rule list up under the registry key `Comp` instead of
deleting the matching signature. -/
theorem c7_counterexample :
    skip_methods c7rc c7env = .error "KeyError" ∧
    skip_methods c7rc c7env ≠
      .ok [("m", [("Comp", Entry.cls ⟨"Computer", [], []⟩)])] :=
  ⟨by decide, by decide⟩

/-- C7 amended: for a class whose registry key equals its target name,
the rule list applied is the class's own; for each name-prefix the pass
consults the snapshot of method keys taken before the prefix loop: if no
snapshot key starts with the prefix it warns and continues with the
state unchanged; if the first matching snapshot key is still present,
exactly that one signature is deleted (on a mapping with distinct keys:
one fewer entry, the key gone, every other entry kept); if it was
already deleted by an earlier prefix the pass aborts with `KeyError`. -/
theorem c7_skip_methods_amended :
    (∀ (m_nms : List Sig) (m : String) (rest : List String)
        (cur : List (Sig × Option Ty)),
      (m_nms.filter (fun s => startsWithB s.name m)).head? = none →
      skipMethodsGo m_nms (m :: rest) cur = skipMethodsGo m_nms rest cur)
    ∧ (∀ (m_nms : List Sig) (m : String) (rest : List String)
        (cur : List (Sig × Option Ty)) (k : Sig),
      (m_nms.filter (fun s => startsWithB s.name m)).head? = some k →
      cur.any (fun p => decide (p.1 = k)) = true →
      (cur.map Prod.fst).Nodup →
      skipMethodsGo m_nms (m :: rest) cur =
        skipMethodsGo m_nms rest (delSig k cur) ∧
      cur.length = (delSig k cur).length + 1 ∧
      (∀ p ∈ delSig k cur, p.1 ≠ k) ∧
      (∀ p ∈ cur, p.1 ≠ k → p ∈ delSig k cur))
    ∧ (∀ (m_nms : List Sig) (m : String) (rest : List String)
        (cur : List (Sig × Option Ty)) (k : Sig),
      (m_nms.filter (fun s => startsWithB s.name m)).head? = some k →
      cur.any (fun p => decide (p.1 = k)) = false →
      skipMethodsGo m_nms (m :: rest) cur = .error "KeyError")
    ∧ (∀ (rules : List (String × List String)) (kk : String) (d : Desc)
        (skippers : List String),
      kk = d.tarname → alookup kk rules = some skippers →
      skipMethodsEntry rules kk (.cls d) =
        match skipMethodsClass skippers d.methods with
        | .error s => .error s
        | .ok ms => .ok (.cls ⟨d.tarname, d.attrs, ms⟩)) := by
  refine ⟨?_, ?_, ?_, ?_⟩
  · intro m_nms m rest cur h
    rw [skipMethodsGo, h]
  · intro m_nms m rest cur k hh hpres hnd
    refine ⟨by rw [skipMethodsGo, hh]; simp only [hpres, if_true], ?_, ?_, ?_⟩
    · apply delKeyG_length_of_nodup hnd
      rcases List.any_eq_true.mp hpres with ⟨p, hp, hpk⟩
      exact ⟨p, hp, of_decide_eq_true hpk⟩
    · intro p hp
      exact (mem_delKeyG.mp hp).2
    · intro p hp hne
      exact mem_delKeyG.mpr ⟨hp, hne⟩
  · intro m_nms m rest cur k hh hpres
    rw [skipMethodsGo, hh]
    simp only [hpres, Bool.false_eq_true, if_false]
  · intro rules kk d skippers htn hlk
    have hsel : keyMem d.tarname rules = true := by
      rw [← htn]
      exact keyMem_of_alookup hlk
    simp only [skipMethodsEntry, hsel, if_true, hlk]

theorem c7_skip_methods_amended_witness :
    (skipMethodsGo [Sig.mk "checkEmail" []] ["blowUp"]
        [(Sig.mk "checkEmail" [], none)] =
      skipMethodsGo [Sig.mk "checkEmail" []] []
        [(Sig.mk "checkEmail" [], none)]) ∧
    ([(Sig.mk "blowUp" [], (none : Option Ty))].length =
      (delSig (Sig.mk "blowUp" [])
        [(Sig.mk "blowUp" [], none)]).length + 1) :=
  ⟨c7_skip_methods_amended.1 [Sig.mk "checkEmail" []] "blowUp" []
      [(Sig.mk "checkEmail" [], none)] (by decide),
   (c7_skip_methods_amended.2.1 [Sig.mk "blowUp" []] "blow" []
      [(Sig.mk "blowUp" [], none)] (Sig.mk "blowUp" []) (by decide)
      (by decide) (by decide)).2.1⟩

/-- C9 (modelled from the spec for the `TypeMatcher` constructor and the
setup-before-execute plugin ordering): if any raw `skiptypes` value
cannot be parsed into a matcher, `setup` fails with the construction
error and the whole run fails with that same error before any pass has
touched the registry. -/
theorem c9_malformed_setup_fatal (raw : RCRaw) (env : Env)
    (known : Ty → Bool) :
    (∀ (m : List (String × List Raw)) (kls : String) (l : List Raw)
        (r : Raw),
      raw.skiptypes = some (.perClass m) → (kls, l) ∈ m → r ∈ l →
      ∀ e0, TypeMatcher r = .error e0 →
      ∃ e2, setup raw = .error e2 ∧ runFilter known raw env = .error e2)
    ∧ (∀ (l : List Raw) (r : Raw),
      raw.skiptypes = some (.skipAll l) → r ∈ l →
      ∀ e0, TypeMatcher r = .error e0 →
      ∃ e2, setup raw = .error e2 ∧ runFilter known raw env = .error e2) := by
  constructor
  · intro m kls l r hst hm hr e0 he
    rcases setupMap_error hm hr he with ⟨e2, h2⟩
    have hset : setup raw = .error e2 := by
      simp only [setup, hst, h2]
    exact ⟨e2, hset, by simp only [runFilter, hset]⟩
  · intro l r hst hr e0 he
    rcases setupList_error hr he with ⟨e2, h2⟩
    have hset : setup raw = .error e2 := by
      simp only [setup, hst, h2]
    exact ⟨e2, hset, by simp only [runFilter, hset]⟩

/-- A raw configuration with an unparseable global skip pattern. -/
def c9raw : RCRaw := ⟨some (.skipAll [Raw.malformed]), none, none, none, none⟩

theorem c9_malformed_setup_fatal_witness :
    setup c9raw = .error "MalformedPattern" ∧
    runFilter (fun _ => true) c9raw [] = .error "MalformedPattern" := by
  obtain ⟨e2, h1, h2⟩ := (c9_malformed_setup_fatal c9raw [] (fun _ => true)).2
    [Raw.malformed] Raw.malformed rfl (List.mem_cons_self _ _)
    "MalformedPattern" rfl
  have hval : setup c9raw = .error "MalformedPattern" := by decide
  have he : e2 = "MalformedPattern" := Except.error.inj (h1.symm.trans hval)
  subst he
  exact ⟨h1, h2⟩

/-- Inputs for C10: registry key `A` differs from the target name `B`,
and both are keys of the rule mapping. -/
def c10rc : RC Ty :=
  ⟨none, none, none, some [("A", ["x"]), ("B", ["y"])], none, none⟩

def c10env : Env :=
  [("m", [("A", Entry.cls
    ⟨"B", [("x", Ty.atom "t"), ("y", Ty.atom "t")], []⟩)])]

/-- C10 counterexample: the registry key `A` differs from the target
name `B` and `B` is a rule key, yet no missing-key error occurs —
the pass succeeds, silently applying the list stored under `A`
(deleting `x`) instead of the class's own list under `B`. -/
theorem c10_counterexample :
    skip_attrs c10rc c10env =
      .ok [("m", [("A", Entry.cls ⟨"B", [("y", Ty.atom "t")], []⟩)])] := by
  decide

/-- C10 amended: in `skip_methods`, `skip_attrs` and `include_methods`
a class is selected by its target name but its rule list is looked up
under the registry key; when the target name is a rule key and the
registry key is not, the lookup raises `KeyError`; when the registry
key is itself a rule key, the list stored under the registry key — not
the class's own — is the one applied. -/
theorem c10_crosskey_amended :
    (∀ (rules : List (String × List String)) (kk : String) (d : Desc),
      keyMem d.tarname rules = true → alookup kk rules = none →
      skipMethodsEntry rules kk (.cls d) = .error "KeyError" ∧
      skipAttrsEntry rules kk (.cls d) = .error "KeyError" ∧
      includeMethodsEntry rules kk (.cls d) = .error "KeyError")
    ∧ (∀ (rules : List (String × List String)) (kk : String) (d : Desc)
        (l : List String),
      keyMem d.tarname rules = true → alookup kk rules = some l →
      skipAttrsEntry rules kk (.cls d) =
        .ok (.cls ⟨d.tarname, skipAttrsClass l d.attrs, d.methods⟩) ∧
      includeMethodsEntry rules kk (.cls d) =
        .ok (.cls ⟨d.tarname, d.attrs, includeMethodsClass l d.methods⟩) ∧
      skipMethodsEntry rules kk (.cls d) =
        match skipMethodsClass l d.methods with
        | .error s => .error s
        | .ok ms => .ok (.cls ⟨d.tarname, d.attrs, ms⟩)) := by
  constructor
  · intro rules kk d hsel hlk
    refine ⟨?_, ?_, ?_⟩
    · simp only [skipMethodsEntry, hsel, if_true, hlk]
    · simp only [skipAttrsEntry, hsel, if_true, hlk]
    · simp only [includeMethodsEntry, hsel, if_true, hlk]
  · intro rules kk d l hsel hlk
    refine ⟨?_, ?_, ?_⟩
    · simp only [skipAttrsEntry, hsel, if_true, hlk]
    · simp only [includeMethodsEntry, hsel, if_true, hlk]
    · simp only [skipMethodsEntry, hsel, if_true, hlk]

theorem c10_crosskey_amended_witness :
    skipAttrsEntry [("B", ["y"])] "A"
      (.cls ⟨"B", [("y", Ty.atom "t")], []⟩) = .error "KeyError" :=
  (c10_crosskey_amended.1 [("B", ["y"])] "A"
    ⟨"B", [("y", Ty.atom "t")], []⟩ (by decide) (by decide)).2.1

end Descfilter
